import Mathlib

/-!
Verification of the skill-sync CLI (src/bin/cli.js).

The filesystem is modelled as a finite tree of named nodes (`FsNode`); paths
are lists of name components.  Commands are shallowly embedded as functions in
a state monad `FsM` that threads the filesystem tree and propagates fatal
outcomes (explicit `process.exit` calls and uncaught filesystem exceptions),
carrying the filesystem state reached at the moment the process dies.

Modelling notes, applied consistently below:
* `fs.readdirSync` on a path that is missing or is a plain file throws in
  Node; in this embedding `readdir` returns `[]` there.  Every use in the CLI
  is either guarded by an existence check plus a directory stat, or would
  crash the process without having performed any mutation, so the properties
  proved below are insensitive to the difference.
* `fs.mkdirSync {recursive}` fails (creating nothing) when a path component
  is an existing plain file, and is a no-op on an existing directory;
  `mkdirp` returns `none` in the failure case.
* `fs.copyFileSync` / `fs.writeFileSync` fail when the destination is an
  existing directory or the destination's parent is missing; `setFile`
  returns `none` in those cases.
* `copyDirectory` in the CLI interleaves reads of the source tree with writes
  to the target tree.  Here the source subtree is snapshotted when the call
  starts; the two coincide whenever source and target subtrees do not
  overlap, which holds at every call site on the states the claims concern.
* The source file defines `showHelp`, `listGlobalSkills`, `addGlobalSkill`,
  `installGlobalSkill` and `listTools` twice; function hoisting makes the
  later definitions the live ones.  The duplicated definitions are
  behaviourally identical, so each is embedded once.
-/

namespace SkillSync

/-- A filesystem path, as a list of name components below the root. -/
abbrev Path := List String

/-- A filesystem node: a plain file with contents, or a directory with an
ordered list of named children. -/
inductive FsNode where
  | file (content : String)
  | dir (children : List (String × FsNode))

/-- Look up a name in an ordered children list. -/
def lookupChild : List (String × FsNode) → String → Option FsNode
  | [], _ => none
  | (a, n) :: rest, x => if a = x then some n else lookupChild rest x

/-- Replace the child named `x` (or append it at the end, matching the
insertion order a real directory listing would show). -/
def setChild : List (String × FsNode) → String → FsNode → List (String × FsNode)
  | [], x, n => [(x, n)]
  | (a, m) :: rest, x, n =>
      if a = x then (x, n) :: rest else (a, m) :: setChild rest x n

/-- Resolve a path to the node it denotes, if any. -/
def FsNode.find : FsNode → Path → Option FsNode
  | n, [] => some n
  | .file _, _ :: _ => none
  | .dir cs, x :: xs =>
      match lookupChild cs x with
      | none => none
      | some c => FsNode.find c xs

/-- `fs.existsSync`. -/
def existsb (n : FsNode) (p : Path) : Bool :=
  (n.find p).isSome

/-- `fs.mkdirSync(p, {recursive: true})`: create the directory chain,
no-op on existing directories, `none` (ENOTDIR/EEXIST) when a component is a
plain file.  The operation creates nothing at all when it fails, since every
component before the blocking file already exists. -/
def FsNode.mkdirp : FsNode → Path → Option FsNode
  | .dir cs, [] => some (.dir cs)
  | .file _, _ => none
  | .dir cs, x :: xs =>
      match
        (match lookupChild cs x with
          | none => FsNode.mkdirp (.dir []) xs
          | some c => FsNode.mkdirp c xs) with
      | none => none
      | some c' => some (.dir (setChild cs x c'))

/-- Write a file at `p` (`fs.writeFileSync` / the destination side of
`fs.copyFileSync`): fails when the parent chain is not a chain of existing
directories, or when `p` itself is an existing directory (EISDIR). -/
def FsNode.setFile : FsNode → Path → String → Option FsNode
  | _, [], _ => none
  | .file _, _ :: _, _ => none
  | .dir cs, [x], content =>
      match lookupChild cs x with
      | some (.dir _) => none
      | _ => some (.dir (setChild cs x (.file content)))
  | .dir cs, x :: y :: xs, content =>
      match lookupChild cs x with
      | none => none
      | some c =>
          match FsNode.setFile c (y :: xs) content with
          | none => none
          | some c' => some (.dir (setChild cs x c'))

/-- `fs.readdirSync`: the child names of a directory, in listing order
(missing or non-directory paths yield `[]`; see the modelling notes). -/
def FsNode.readdir (n : FsNode) (p : Path) : List String :=
  match n.find p with
  | some (.dir cs) => cs.map Prod.fst
  | _ => []

/-- Observation helper: the contents of the file at `p`, if a file is there. -/
def readFileAt (n : FsNode) (p : Path) : Option String :=
  match n.find p with
  | some (.file c) => some c
  | _ => none

/-- Observation helper: whether the node at `p` is a directory. -/
def isDirAt (n : FsNode) (p : Path) : Bool :=
  match n.find p with
  | some (.dir _) => true
  | _ => false

/-! ## Tool registry (the `AI_TOOLS` table) -/

/-- The six registered tool identifiers. -/
inductive Tool where
  | cursor | claude | codex | windsurf | aider | opencode
deriving DecidableEq

/-- One `AI_TOOLS` entry. -/
structure ToolConfig where
  dir : String
  skillsDir : String
  subagentsDir : String
  configFile : String
deriving DecidableEq

/-- The static `AI_TOOLS` mapping. -/
def toolConfig : Tool → ToolConfig
  | .cursor => ⟨".cursor", "skills", "subagents", "settings.json"⟩
  | .claude => ⟨".claude", "skills", "subagents", "claude.json"⟩
  | .codex => ⟨".codex", "skills", "subagents", "config.json"⟩
  | .windsurf => ⟨".windsurf", "skills", "subagents", "settings.json"⟩
  | .aider => ⟨".aider", "skills", "subagents", "aider.conf.yml"⟩
  | .opencode => ⟨".opencode", "skills", "subagents", "settings.json"⟩

/-- The key of a tool in `AI_TOOLS` (`"cursor"`, `"claude"`, ...). -/
def toolName : Tool → String
  | .cursor => "cursor"
  | .claude => "claude"
  | .codex => "codex"
  | .windsurf => "windsurf"
  | .aider => "aider"
  | .opencode => "opencode"

/-- Registry iteration order: `Object.entries(AI_TOOLS)` / `Object.keys`. -/
def toolList : List Tool :=
  [.cursor, .claude, .codex, .windsurf, .aider, .opencode]

/-- `AI_TOOLS[s]` for a command-line string: the registered tool with that
key, if any. -/
def parseTool (s : String) : Option Tool :=
  toolList.find? (fun t => toolName t = s)

/-- Command-line options (`--skills-only`, `--subagents-only`, `--dry-run`,
`--force`, `-v`/`--verbose`). -/
structure Options where
  skillsOnly : Bool := false
  subagentsOnly : Bool := false
  dryRun : Bool := false
  force : Bool := false
  verbose : Bool := false
deriving DecidableEq

/-! ## Directory scanner (`detectTools`) -/

/-- One entry of `detected[name]` that the rest of the CLI consumes: the
tool's root path and the base names of its skill and subagent entries, in
directory-listing order. -/
structure Detected where
  path : Path
  skills : List String
  subagents : List String
deriving DecidableEq

/-- `item.endsWith(suffix)`, phrased over the character lists so that it
evaluates inside the kernel. -/
def endsWithStr (s suffix : String) : Bool :=
  List.isSuffixOf suffix.data s.data

/-- The entry filter of `detectTools`: files are kept when their name ends in
`.md` or `.json`, directories are always kept, other files are dropped. -/
def scanEntries (fs : FsNode) (p : Path) : List String :=
  (fs.readdir p).filter fun item =>
    match fs.find (p ++ [item]) with
    | some (.file _) => endsWithStr item ".md" || endsWithStr item ".json"
    | some (.dir _) => true
    | none => false

/-- `detectTools(rootPath)`: for each registered tool whose root directory
exists, record its path and scan its skills and subagents subdirectories
(a missing subdirectory yields an empty list). -/
def detectTools (cwd : Path) (fs : FsNode) : List (Tool × Detected) :=
  toolList.filterMap fun t =>
    let cfg := toolConfig t
    let toolPath := cwd ++ [cfg.dir]
    if existsb fs toolPath then
      some (t, { path := toolPath
                 skills := scanEntries fs (toolPath ++ [cfg.skillsDir])
                 subagents := scanEntries fs (toolPath ++ [cfg.subagentsDir]) })
    else none

/-- Look a tool up in a detection result (`detected[name]`). -/
def detLookup (det : List (Tool × Detected)) (t : Tool) : Option Detected :=
  (det.find? (fun p => p.1 = t)).map Prod.snd

/-! ## Recursive copier (`copyDirectory`) -/

/-- The loop body of `copyDirectory` over the (snapshotted) source children:
subdirectories recurse unconditionally (creating the target directory if
missing), plain files are copied only when the target path is absent or
`force` is set.  Returns the new filesystem and whether the walk completed;
`false` means an uncaught filesystem exception, with the filesystem as it
stood at that moment. -/
def copyEntries : List (String × FsNode) → Path → Bool → FsNode → FsNode × Bool
  | [], _, _, fs => (fs, true)
  | (name, .dir cs) :: rest, tgt, force, fs =>
      (match fs.mkdirp (tgt ++ [name]) with
       | none => (fs, false)
       | some fs1 =>
           match copyEntries cs (tgt ++ [name]) force fs1 with
           | (fs2, true) => copyEntries rest tgt force fs2
           | bad => bad)
  | (name, .file c) :: rest, tgt, force, fs =>
      if !existsb fs (tgt ++ [name]) || force then
        match fs.setFile (tgt ++ [name]) c with
        | none => (fs, false)
        | some fs1 => copyEntries rest tgt force fs1
      else copyEntries rest tgt force fs

/-- `copyDirectory(source, target, options)`: create the target directory if
missing, then copy every source entry (see `copyEntries`).  The source
subtree is snapshotted at entry (see the modelling notes). -/
def copyDirectory (fs : FsNode) (src tgt : Path) (force : Bool) : FsNode × Bool :=
  match fs.find src with
  | some (.dir cs) =>
      (match fs.mkdirp tgt with
       | none => (fs, false)
       | some fs1 => copyEntries cs tgt force fs1)
  | _ => (fs, false)

/-! ## The command monad -/

/-- How a command invocation dies: an explicit `process.exit(code)` or an
uncaught filesystem exception (which also terminates the process with a
non-zero status). -/
inductive Fatal where
  | exited (code : Nat)
  | fsError
deriving DecidableEq

/-- The command monad: a state transformer over the filesystem that, on a
fatal outcome, still reports the filesystem as it stood when the process
died. -/
def FsM (α : Type) : Type :=
  FsNode → Except (Fatal × FsNode) (α × FsNode)

/-- Sequencing: run `m`, feed its result to `f`, propagating a fatal
outcome together with the filesystem state it died in. -/
def FsM.bind {α β : Type} (m : FsM α) (f : α → FsM β) : FsM β := fun fs =>
  match m fs with
  | .ok (a, fs') => f a fs'
  | .error e => .error e

/-- A completed computation that leaves the filesystem alone. -/
def FsM.pure {α : Type} (a : α) : FsM α := fun fs => .ok (a, fs)

instance : Monad FsM where
  pure := FsM.pure
  bind := FsM.bind

/-- Read the current filesystem. -/
def getFs : FsM FsNode := fun fs => .ok (fs, fs)

/-- `process.exit(code)`. -/
def exitWith {α : Type} (code : Nat) : FsM α := fun fs => .error (.exited code, fs)

/-- An uncaught filesystem exception. -/
def fsCrash {α : Type} : FsM α := fun fs => .error (.fsError, fs)

/-- Run `fs.mkdirSync(p, {recursive: true})`, crashing on failure. -/
def doMkdirp (p : Path) : FsM Unit := fun fs =>
  match fs.mkdirp p with
  | none => .error (.fsError, fs)
  | some fs' => .ok ((), fs')

/-- Write a file (the effect of `fs.writeFileSync` or of `fs.copyFileSync`
whose source contents are `c`), crashing on failure. -/
def doSetFile (p : Path) (c : String) : FsM Unit := fun fs =>
  match fs.setFile p c with
  | none => .error (.fsError, fs)
  | some fs' => .ok ((), fs')

/-- Lift a `copyDirectory` result, crashing if the walk died. -/
def doCopyDirectory (src tgt : Path) (force : Bool) : FsM Unit := fun fs =>
  match copyDirectory fs src tgt force with
  | (fs', true) => .ok ((), fs')
  | (fs', false) => .error (.fsError, fs')

/-- The `if (!fs.existsSync(p)) fs.mkdirSync(p, {recursive: true})` pattern. -/
def doMkdirpIfMissing (p : Path) : FsM Unit := fun fs =>
  if existsb fs p then .ok ((), fs) else doMkdirp p fs

/-- The `if (!fs.existsSync(p)) fs.writeFileSync(p, c)` pattern. -/
def doSetFileIfMissing (p : Path) (c : String) : FsM Unit := fun fs =>
  if existsb fs p then .ok ((), fs) else doSetFile p c fs

/-- The filesystem a command run leaves behind, whether it completed or
died. -/
def stateAfter {α : Type} (m : FsM α) (fs : FsNode) : FsNode :=
  match m fs with
  | .ok (_, fs') => fs'
  | .error (_, fs') => fs'

/-- The value a command run returned, when it completed. -/
def valueOf {α : Type} (m : FsM α) (fs : FsNode) : Option α :=
  match m fs with
  | .ok (a, _) => some a
  | .error _ => none

/-- Whether a command run completed without dying. -/
def completes {α : Type} (m : FsM α) (fs : FsNode) : Bool :=
  (valueOf m fs).isSome

/-! ## `initTool` -/

/-- The stub config JSON written by `initTool`
(`JSON.stringify({name, version: "1.0.0", created}, null, 2)`). -/
def defaultConfig (name now : String) : String :=
  "\x7b\n  \"name\": \"" ++ name ++ "\",\n  \"version\": \"1.0.0\",\n  \"created\": \"" ++ now ++ "\"\n\x7d"

/-- `initTool(toolName)`: exit(1) on an unknown id, then create the tool root
directory, its skills and subagents subdirectories and a stub config file,
each step guarded by an existence check.  `now` is the timestamp
`new Date().toISOString()` would produce. -/
def initTool (name : String) (cwd : Path) (now : String) : FsM Unit := do
  match parseTool name with
  | none => exitWith 1
  | some t => do
      let cfg := toolConfig t
      let toolPath := cwd ++ [cfg.dir]
      doMkdirpIfMissing toolPath
      doMkdirpIfMissing (toolPath ++ [cfg.skillsDir])
      doMkdirpIfMissing (toolPath ++ [cfg.subagentsDir])
      doSetFileIfMissing (toolPath ++ [cfg.configFile]) (defaultConfig (toolName t) now)

/-! ## Mirror engine (`mirror`) -/

/-- A skill or subagent entry, as a transfer category. -/
inductive Category where
  | skill | subagent
deriving DecidableEq

/-- One element of `filesToSync`. -/
structure TransferOp where
  src : Path
  tgt : Path
  category : Category
  name : String
deriving DecidableEq

/-- What the mirror loop reported for one op. -/
inductive OpAction where
  | wouldCreate | wouldUpdate | skippedExists | created | updated
deriving DecidableEq

/-- One line of the mirror log. -/
structure OpResult where
  category : Category
  name : String
  action : OpAction
deriving DecidableEq

/-- Build `filesToSync` for a mirror invocation: skill entries unless
`--subagents-only`, then subagent entries unless `--skills-only`.  The target
path reuses the entry's base name under the target tool's category
subdirectory. -/
def collectOps (src : Detected) (tgtPath : Path) (tgtCfg : ToolConfig)
    (srcCfg : ToolConfig) (opts : Options) : List TransferOp :=
  (if !opts.subagentsOnly then
    src.skills.map fun name =>
      { src := src.path ++ [srcCfg.skillsDir, name]
        tgt := tgtPath ++ [tgtCfg.skillsDir, name]
        category := .skill, name := name }
  else []) ++
  (if !opts.skillsOnly then
    src.subagents.map fun name =>
      { src := src.path ++ [srcCfg.subagentsDir, name]
        tgt := tgtPath ++ [tgtCfg.subagentsDir, name]
        category := .subagent, name := name }
  else [])

/-- The per-op loop of `mirror`: a fresh existence check on the target path,
then the dry-run / skip / copy decision.  Copy errors are not caught: they
abort the remaining iterations (the monad propagates the fatal outcome). -/
def runOps (opts : Options) : List TransferOp → FsM (List OpResult)
  | [] => pure []
  | op :: rest => do
      let fs ← getFs
      let ex := existsb fs op.tgt
      if opts.dryRun then do
        let rs ← runOps opts rest
        pure (⟨op.category, op.name, if ex then .wouldUpdate else .wouldCreate⟩ :: rs)
      else if ex && !opts.force then do
        let rs ← runOps opts rest
        pure (⟨op.category, op.name, .skippedExists⟩ :: rs)
      else do
        match fs.find op.src with
        | some (.dir _) => do
            doCopyDirectory op.src op.tgt opts.force
            let rs ← runOps opts rest
            pure (⟨op.category, op.name, if ex then .updated else .created⟩ :: rs)
        | some (.file c) => do
            doMkdirpIfMissing op.tgt.dropLast
            doSetFile op.tgt c
            let rs ← runOps opts rest
            pure (⟨op.category, op.name, if ex then .updated else .created⟩ :: rs)
        | none => fsCrash

/-- The overall outcome of one `mirror` invocation. -/
inductive MirrorOutcome where
  | noFiles
  | done (results : List OpResult)
deriving DecidableEq

/-- `mirror(sourceTool, targetTool, options)`: exit(1) on an unknown source
or target id, exit(1) when the source tool is not detected, auto-`initTool`
an undetected target (before `dryRun` is ever consulted) and re-detect it,
build `filesToSync`, report `noFiles` when it is empty, otherwise run the
per-op loop. -/
def mirror (sourceTool targetTool : String) (opts : Options) (cwd : Path)
    (now : String) : FsM MirrorOutcome := do
  match parseTool sourceTool with
  | none => exitWith 1
  | some s =>
      match parseTool targetTool with
      | none => exitWith 1
      | some t => do
          let fs0 ← getFs
          let det := detectTools cwd fs0
          match detLookup det s with
          | none => exitWith 1
          | some src => do
              (match detLookup det t with
               | some _ => pure ()
               | none => initTool targetTool cwd now)
              let fs1 ← getFs
              match
                (match detLookup det t with
                 | some d => some d
                 | none => detLookup (detectTools cwd fs1) t) with
              | none => fsCrash
              | some tgt => do
                  let ops := collectOps src tgt.path (toolConfig t) (toolConfig s) opts
                  if ops.isEmpty then pure .noFiles
                  else do
                    let rs ← runOps opts ops
                    pure (.done rs)

/-! ## Sync orchestrator (`syncAll`) -/

/-- The inner loop of `syncAll`: mirror every ordered pair in sequence,
collecting each pair's outcome. -/
def runPairs (opts : Options) (cwd : Path) (now : String) :
    List (Tool × Tool) → FsM (List ((Tool × Tool) × MirrorOutcome))
  | [] => pure []
  | (a, b) :: rest => do
      let out ← mirror (toolName a) (toolName b) opts cwd now
      let rs ← runPairs opts cwd now rest
      pure (((a, b), out) :: rs)

/-- `syncAll(options)`: detect tools once, require at least two, then mirror
every ordered pair `(i, j)`, `i ≠ j`, in detection order (outer loop over
sources, inner loop over targets).  Each `mirror` call re-detects tools
itself; only the pair list is taken from the initial snapshot. -/
def syncAll (opts : Options) (cwd : Path) (now : String) :
    FsM (List ((Tool × Tool) × MirrorOutcome)) := do
  let fs0 ← getFs
  let det := detectTools cwd fs0
  let tools := det.map Prod.fst
  let pairs := tools.flatMap fun a =>
    (tools.filter (fun b => !(b = a : Bool))).map fun b => (a, b)
  if tools.length < 2 then pure []
  else runPairs opts cwd now pairs

/-- The `for (const tool of installed) initTool(tool)` loop of `setup`. -/
def initToolsLoop (cwd : Path) (now : String) : List String → FsM Unit
  | [] => pure ()
  | t :: rest => do
      initTool t cwd now
      initToolsLoop cwd now rest

/-- `setup(options)`: given the probed list of installed tool ids (produced
by the external CLI-probing collaborator), do nothing when it is empty or
under `--dry-run`, otherwise `initTool` each id in order. -/
def setup (installed : List String) (opts : Options) (cwd : Path)
    (now : String) : FsM Unit := do
  if installed.isEmpty then pure ()
  else if opts.dryRun then pure ()
  else initToolsLoop cwd now installed

/-! ## Global skill registry -/

/-- `GLOBAL_SKILLS_DIR = <home>/.skill-sync/global-skills`. -/
def globalDir (home : Path) : Path :=
  home ++ [".skill-sync", "global-skills"]

/-- `ensureGlobalSkillsDir()`. -/
def ensureGlobalSkillsDir (home : Path) : FsM Unit :=
  doMkdirpIfMissing (globalDir home)

/-- Copy a file or a directory from `src` to `tgt`, dispatching on the stat
of `src` the way `addGlobalSkill` / `installGlobalSkill` do. -/
def copyEntry (src tgt : Path) (force : Bool) : FsM Unit := do
  let fs ← getFs
  match fs.find src with
  | some (.dir _) => doCopyDirectory src tgt force
  | some (.file c) => doSetFile tgt c
  | none => fsCrash

/-- `addGlobalSkill(skillName, sourcePath)`: ensure the registry directory;
when no source path is given probe `.cursor/skills/<name>` then
`.claude/skills/<name>` under the current directory, exiting(1) when neither
exists; exit(1) when an explicit source path does not exist; when the
registry already holds the name, warn and return — the `force` option is
never consulted here; otherwise copy the source into the registry. -/
def addGlobalSkill (skillName : String) (sourcePath : Option Path)
    (opts : Options) (cwd home : Path) : FsM Unit := do
  ensureGlobalSkillsDir home
  let fs ← getFs
  let resolved : Option Path :=
    match sourcePath with
    | some p => some p
    | none =>
        let cursorSkillPath := cwd ++ [".cursor", "skills", skillName]
        let claudeSkillPath := cwd ++ [".claude", "skills", skillName]
        if existsb fs cursorSkillPath then some cursorSkillPath
        else if existsb fs claudeSkillPath then some claudeSkillPath
        else none
  match resolved with
  | none => exitWith 1
  | some src => do
      if !existsb fs src then exitWith 1
      else do
        let tgt := globalDir home ++ [skillName]
        if existsb fs tgt then pure ()
        else copyEntry src tgt opts.force

/-- The body of `installGlobalSkill`'s per-tool loop: skip undetected tools
with a warning, skip tools that already hold the name, otherwise copy the
registry entry (always without overwrite: the copy is invoked with `{}`). -/
def installLoop (globalSkillPath : Path) (skillName : String)
    (det : List (Tool × Detected)) : List String → FsM Unit
  | [] => pure ()
  | toolStr :: rest => do
      match (det.find? (fun p => toolName p.1 = toolStr)).map Prod.snd with
      | none => installLoop globalSkillPath skillName det rest
      | some d => do
          let fs ← getFs
          match parseTool toolStr with
          | none => fsCrash
          | some t => do
              let tgt := d.path ++ [(toolConfig t).skillsDir, skillName]
              if existsb fs tgt then installLoop globalSkillPath skillName det rest
              else do
                copyEntry globalSkillPath tgt false
                installLoop globalSkillPath skillName det rest

/-- `installGlobalSkill(skillName, targetTool)`: ensure the registry
directory, exit(1) when the named global skill is absent, detect tools,
target either the single named tool string or every detected tool, exit(1)
only when no explicit tool was named and nothing is detected, then run the
per-tool loop — an unknown or undetected explicit tool is merely skipped with
a warning and the command completes. -/
def installGlobalSkill (skillName : String) (targetTool : Option String)
    (cwd home : Path) : FsM Unit := do
  ensureGlobalSkillsDir home
  let fs ← getFs
  let globalSkillPath := globalDir home ++ [skillName]
  if !existsb fs globalSkillPath then exitWith 1
  else do
    let det := detectTools cwd fs
    let tools : List String :=
      match targetTool with
      | some t => [t]
      | none => det.map fun p => toolName p.1
    if tools.isEmpty then exitWith 1
    else installLoop globalSkillPath skillName det tools

/-! ## Top-level command dispatch -/

/-- A parsed command invocation (the `switch (command)` at the bottom of the
CLI, with positional arguments already split out).  `listCmd`, `globalList`
and `help` only read the filesystem or print; `setup` carries the probed
installed-tool list produced by the external collaborator. -/
inductive Command where
  | syncCmd
  | mirrorCmd (sourceTool targetTool : String)
  | setupCmd (installed : List String)
  | listCmd
  | initCmd (tool : String)
  | globalList
  | globalAdd (skillName : String) (sourcePath : Option Path)
  | globalInstall (skillName : String) (targetTool : Option String)
  | help

/-- Dispatch one command invocation.  `global list` runs
`ensureGlobalSkillsDir` before listing; `list` and `help` only read. -/
def runCommand (c : Command) (opts : Options) (cwd home : Path)
    (now : String) : FsM Unit := do
  match c with
  | .syncCmd => do
      let _ ← syncAll opts cwd now
      pure ()
  | .mirrorCmd s t => do
      let _ ← mirror s t opts cwd now
      pure ()
  | .setupCmd installed => setup installed opts cwd now
  | .listCmd => pure ()
  | .initCmd t => initTool t cwd now
  | .globalList => ensureGlobalSkillsDir home
  | .globalAdd name src => addGlobalSkill name src opts cwd home
  | .globalInstall name t => installGlobalSkill name t cwd home
  | .help => pure ()

/-! ## Concrete working trees used in the claim analyses -/

/-- The registered tools, indexed in registry order. -/
def toolAt (i : Fin 6) : Tool := toolList.get (Fin.cast rfl i)

/-- A working tree holding only `.cursor/skills/a.md`: the target tool of a
mirror into `claude` does not exist yet. -/
def dryRunFixture : FsNode :=
  .dir [(".cursor", .dir [("skills", .dir [("a.md", .file "ca")])])]

/-- A working tree where the target already holds a directory named `a.md`
while the source's `a.md` is a plain file, so that copying `a.md` raises
EISDIR; the source also holds a second entry `b.md` behind it. -/
def crashFixture : FsNode :=
  .dir [(".cursor", .dir [("skills", .dir [("a.md", .file "ca"), ("b.md", .file "cb")])]),
        (".claude", .dir [("skills", .dir [("a.md", .dir [])])])]

/-- The failing op of `crashFixture`'s mirror: source file `a.md` onto the
target's directory `a.md`. -/
def crashOp : TransferOp :=
  { src := [".cursor", "skills", "a.md"]
    tgt := [".claude", "skills", "a.md"]
    category := .skill, name := "a.md" }

/-- Source directory skill `skill1/{x.md,y.md}`, pre-existing target
directory `skill1/{x.md}` with stale contents. -/
def fillGapFixture : FsNode :=
  .dir [(".cursor", .dir [("skills", .dir [("skill1",
          .dir [("x.md", .file "new-x"), ("y.md", .file "new-y")])])]),
        (".claude", .dir [("skills", .dir [("skill1",
          .dir [("x.md", .file "old-x")])])])]

/-- Two detected tools holding one skill file each: tool `i` holds `a.md`,
tool `j` holds `b.md`. -/
def pairFixture (i j : Fin 6) : FsNode :=
  .dir [((toolConfig (toolAt i)).dir, .dir [("skills", .dir [("a.md", .file "alpha")])]),
        ((toolConfig (toolAt j)).dir, .dir [("skills", .dir [("b.md", .file "beta")])])]

/-- A home directory whose global registry already holds skill `x` (with
contents `"old"`), next to a working tree holding a candidate source file. -/
def registryFixture : FsNode :=
  .dir [("home", .dir [(".skill-sync", .dir [("global-skills", .dir [("x", .file "old")])])]),
        ("s.md", .file "new")]

/-- `.cursor` holds `a.md`; `.claude` exists with an empty skills directory,
so anything `a.md`-shaped appearing in `.claude` during a sync was created by
the sync itself. -/
def rescanFixture : FsNode :=
  .dir [(".cursor", .dir [("skills", .dir [("a.md", .file "ca")])]),
        (".claude", .dir [("skills", .dir [])])]

/-- The working tree `mirror cursor claude` (no flags) leaves behind when run
on `dryRunFixture`: `.claude` was auto-initialised and `a.md` copied. -/
def idemFs1 : FsNode :=
  .dir [(".cursor", .dir [("skills", .dir [("a.md", .file "ca")])]),
        (".claude", .dir [("skills", .dir [("a.md", .file "ca")]),
                          ("subagents", .dir []),
                          ("claude.json", .file (defaultConfig "claude" "T"))])]

/-! ## Well-formed trees

`niceAll` / `FsNode.nice` rule out directory listings with duplicate names —
trees no real filesystem can produce, but which the list-of-children
representation admits. -/

/-- No key occurs twice in one children list. -/
def nodupKeys : List (String × FsNode) → Bool
  | [] => true
  | (a, _) :: rest => !(rest.any fun p => p.1 = a) && nodupKeys rest

/-- Every directory reachable from one of the listed nodes has duplicate-free
children. -/
def niceAll : List (String × FsNode) → Bool
  | [] => true
  | (_, .file _) :: rest => niceAll rest
  | (_, .dir cs) :: rest => nodupKeys cs && niceAll cs && niceAll rest

/-- Every directory reachable from this node has duplicate-free children. -/
def FsNode.nice : FsNode → Bool
  | .file _ => true
  | .dir cs => nodupKeys cs && niceAll cs

/-- Whether one path strictly diverges from another: they disagree at some
component index that lies inside both. Mutating below one path cannot be
observed below the other when they diverge. -/
def divergeb : Path → Path → Bool
  | [], _ => false
  | _, [] => false
  | a :: as, b :: bs => a ≠ b || divergeb as bs

/-! ## Relations between filesystem states

These express what the CLI's mutations can and cannot do; the claim theorems
below instantiate them. -/

/-- Every path that resolves in `a` still resolves in `b` (nothing was
deleted). -/
def Grows (a b : FsNode) : Prop :=
  ∀ q : Path, (a.find q).isSome → (b.find q).isSome

/-- Every file of `a` is still present in `b` with identical contents. -/
def KeepsFiles (a b : FsNode) : Prop :=
  ∀ (q : Path) (s : String), a.find q = some (.file s) → b.find q = some (.file s)

/-- Every directory of `a` is still a directory in `b`. -/
def KeepsDirs (a b : FsNode) : Prop :=
  ∀ (q : Path) (d : List (String × FsNode)), a.find q = some (.dir d) →
    ∃ d', b.find q = some (.dir d')

/-- Nothing outside the subtree below `base` changed between `a` and `b`. -/
def FrameOutside (base : Path) (a b : FsNode) : Prop :=
  ∀ q : Path, divergeb base q = true → b.find q = a.find q

/-! ## Claim theorems on concrete runs -/

/-- C1: Dry-run purity fails exactly where the claim demands it must hold.
With `dryRun = true` and a target tool whose directory does not yet exist,
`mirror` still materialises the target skeleton: `.claude` is absent before
the run and exists after it (together with its skills and subagents
subdirectories and a config file), because `mirror` auto-runs `initTool` on
an undetected target before the per-op loop ever consults `dryRun`. -/
theorem mirror_dryRun_creates_target_dirs :
    existsb dryRunFixture [".claude"] = false ∧
    (let fsEnd := stateAfter
        (mirror "cursor" "claude" ⟨false, false, true, false, false⟩ [] "T") dryRunFixture
     isDirAt fsEnd [".claude"] = true ∧
     isDirAt fsEnd [".claude", "skills"] = true ∧
     isDirAt fsEnd [".claude", "subagents"] = true ∧
     readFileAt fsEnd [".claude", "claude.json"] = some (defaultConfig "claude" "T")) := by
  exact ⟨rfl, rfl, rfl, rfl, rfl⟩

/-- C2 (counterexample): a per-file copy error is not caught at the op's
granularity.  On `crashFixture` with `--force`, copying `a.md` raises EISDIR
and the whole mirror dies with an uncaught filesystem error: no `failed`
result is recorded, and the sibling op `b.md` is never processed (`b.md`
never appears in the target). -/
theorem mirror_copy_error_aborts_run :
    (mirror "cursor" "claude" ⟨false, false, false, true, false⟩ [] "T") crashFixture
      = .error (.fsError, crashFixture) ∧
    readFileAt
      (stateAfter (mirror "cursor" "claude" ⟨false, false, false, true, false⟩ [] "T")
        crashFixture) [".claude", "skills", "b.md"] = none := by
  exact ⟨rfl, rfl⟩

/-- C3 (counterexample): mirroring `fillGapFixture` with `force = false` does
NOT add `y.md` to the pre-existing target directory `skill1`.  The whole
directory op is reported `skippedExists` because its target path exists, so
the target keeps exactly `{x.md(old)}`. -/
theorem mirror_noforce_skips_existing_directory_op :
    valueOf (mirror "cursor" "claude" ⟨false, false, false, false, false⟩ [] "T") fillGapFixture
      = some (.done [⟨.skill, "skill1", .skippedExists⟩]) ∧
    readFileAt
      (stateAfter (mirror "cursor" "claude" ⟨false, false, false, false, false⟩ [] "T")
        fillGapFixture) [".claude", "skills", "skill1", "y.md"] = none ∧
    readFileAt
      (stateAfter (mirror "cursor" "claude" ⟨false, false, false, false, false⟩ [] "T")
        fillGapFixture) [".claude", "skills", "skill1", "x.md"] = some "old-x" := by
  exact ⟨rfl, rfl, rfl⟩

/-- C3 (amended): at the mirror level a directory op whose target path
already exists is skipped whole with `force = false`, leaving the working
tree completely unchanged; the fill-in-missing-files merge (`x.md` kept
stale, `y.md` added) is the behaviour of the recursive copier `copyDirectory`
itself, when it is invoked directly on the two `skill1` directories. -/
theorem directory_fill_gap_only_direct_copy :
    stateAfter (mirror "cursor" "claude" ⟨false, false, false, false, false⟩ [] "T")
      fillGapFixture = fillGapFixture ∧
    (let direct := copyDirectory fillGapFixture
        [".cursor", "skills", "skill1"] [".claude", "skills", "skill1"] false
     direct.2 = true ∧
     readFileAt direct.1 [".claude", "skills", "skill1", "x.md"] = some "old-x" ∧
     readFileAt direct.1 [".claude", "skills", "skill1", "y.md"] = some "new-y") := by
  exact ⟨rfl, rfl, rfl, rfl⟩

/-- C4: full-mesh convergence under `--force`.  For every ordered pair of
distinct registered tools where the first holds exactly `{a.md}` and the
second exactly `{b.md}`, one `syncAll` run with `force = true` leaves both
skills directories holding exactly `{a.md, b.md}` with the original
contents. -/
theorem syncAll_force_two_tool_convergence :
    ∀ i j : Fin 6, i ≠ j →
    (let fsEnd := stateAfter (syncAll ⟨false, false, false, true, false⟩ [] "T") (pairFixture i j)
     readFileAt fsEnd [(toolConfig (toolAt i)).dir, "skills", "a.md"] = some "alpha" ∧
     readFileAt fsEnd [(toolConfig (toolAt i)).dir, "skills", "b.md"] = some "beta" ∧
     readFileAt fsEnd [(toolConfig (toolAt j)).dir, "skills", "a.md"] = some "alpha" ∧
     readFileAt fsEnd [(toolConfig (toolAt j)).dir, "skills", "b.md"] = some "beta" ∧
     (fsEnd.readdir [(toolConfig (toolAt i)).dir, "skills"] = ["a.md", "b.md"] ∨
      fsEnd.readdir [(toolConfig (toolAt i)).dir, "skills"] = ["b.md", "a.md"]) ∧
     (fsEnd.readdir [(toolConfig (toolAt j)).dir, "skills"] = ["a.md", "b.md"] ∨
      fsEnd.readdir [(toolConfig (toolAt j)).dir, "skills"] = ["b.md", "a.md"])) := by
  decide

/-- Witness for C4 at the concrete pair (cursor, claude). -/
theorem syncAll_force_two_tool_convergence_witness :
    (0 : Fin 6) ≠ (1 : Fin 6) ∧
    (let fsEnd := stateAfter (syncAll ⟨false, false, false, true, false⟩ [] "T") (pairFixture 0 1)
     readFileAt fsEnd [(toolConfig (toolAt 0)).dir, "skills", "a.md"] = some "alpha" ∧
     readFileAt fsEnd [(toolConfig (toolAt 0)).dir, "skills", "b.md"] = some "beta" ∧
     readFileAt fsEnd [(toolConfig (toolAt 1)).dir, "skills", "a.md"] = some "alpha" ∧
     readFileAt fsEnd [(toolConfig (toolAt 1)).dir, "skills", "b.md"] = some "beta" ∧
     (fsEnd.readdir [(toolConfig (toolAt 0)).dir, "skills"] = ["a.md", "b.md"] ∨
      fsEnd.readdir [(toolConfig (toolAt 0)).dir, "skills"] = ["b.md", "a.md"]) ∧
     (fsEnd.readdir [(toolConfig (toolAt 1)).dir, "skills"] = ["a.md", "b.md"] ∨
      fsEnd.readdir [(toolConfig (toolAt 1)).dir, "skills"] = ["b.md", "a.md"])) :=
  ⟨by decide, syncAll_force_two_tool_convergence 0 1 (by decide)⟩

/-- C6: the `force` flag never reaches `addGlobalSkill`'s duplicate check.
Adding skill `x` from a new source path with `--force` set, while the
registry already holds `x`, completes as a pure no-op: the run returns with
the filesystem untouched and the registry entry still holds its old
contents, even though the command's own output advertises
`Use --force to overwrite`. -/
theorem addGlobalSkill_force_ignored :
    (addGlobalSkill "x" (some ["s.md"]) ⟨false, false, false, true, false⟩ [] ["home"])
      registryFixture = .ok ((), registryFixture) ∧
    readFileAt registryFixture ["home", ".skill-sync", "global-skills", "x"] = some "old" := by
  exact ⟨rfl, rfl⟩

/-- C7 (counterexample): `global install <skill> <tool>` with a tool id that
is not registered does NOT terminate with a non-zero exit status.  The loop
merely skips the unknown tool with a warning and the command completes
normally. -/
theorem installGlobalSkill_unknown_tool_completes :
    (installGlobalSkill "x" (some "nosuchtool") [] ["home"]) registryFixture
      = .ok ((), registryFixture) := by
  exact rfl

/-- C8 (counterexample): within one `syncAll` run over `rescanFixture`, the
file `a.md` created in `.claude` by the earlier pair (cursor, claude) IS
visible as a source entry to the later pair (claude, cursor): that pair's op
list contains `a.md` (reported `skippedExists` at cursor) instead of the
`noFiles` outcome the start-of-run snapshot (`claude` had no entries) would
dictate. -/
theorem syncAll_later_pair_sees_created_file :
    valueOf (syncAll ⟨false, false, false, false, false⟩ [] "T") rescanFixture
      = some [((.cursor, .claude), .done [⟨.skill, "a.md", .created⟩]),
              ((.claude, .cursor), .done [⟨.skill, "a.md", .skippedExists⟩])] := by
  exact rfl

/-- C8 (amended): `syncAll` snapshots only the detected tool set; each
`mirror` invocation re-runs `detectTools`, so entries created by earlier
pairs are re-scanned and visible to later pairs.  On `rescanFixture`,
`claude` has no skill entries at the start of the run, yet after the run it
holds `a.md` and the later (claude, cursor) pair processed `a.md` as a
source entry. -/
theorem mirror_rescans_entries_each_invocation :
    scanEntries rescanFixture [".claude", "skills"] = [] ∧
    (let run := syncAll ⟨false, false, false, false, false⟩ [] "T"
     readFileAt (stateAfter run rescanFixture) [".claude", "skills", "a.md"] = some "ca" ∧
     (valueOf run rescanFixture).map (List.map Prod.snd)
        = some [.done [⟨.skill, "a.md", .created⟩],
                .done [⟨.skill, "a.md", .skippedExists⟩]]) := by
  exact ⟨rfl, rfl, rfl⟩

/-! ## Children-list lemmas -/

theorem lookupChild_setChild_self (cs : List (String × FsNode)) (x : String) (n : FsNode) :
    lookupChild (setChild cs x n) x = some n := by
  induction cs with
  | nil => simp [setChild, lookupChild]
  | cons hd tl ih =>
      obtain ⟨a, m⟩ := hd
      by_cases h : a = x
      · simp [setChild, h, lookupChild]
      · simp [setChild, h, lookupChild, ih]

theorem lookupChild_setChild_of_ne (cs : List (String × FsNode)) (x : String) (n : FsNode)
    (y : String) (h : y ≠ x) :
    lookupChild (setChild cs x n) y = lookupChild cs y := by
  have hxy : ¬(x = y) := fun hh => h hh.symm
  induction cs with
  | nil => simp [setChild, lookupChild, hxy]
  | cons hd tl ih =>
      obtain ⟨a, m⟩ := hd
      by_cases hax : a = x
      · subst hax
        simp [setChild, lookupChild, hxy]
      · by_cases hay : a = y
        · simp [setChild, hax, lookupChild, hay, h]
        · simp [setChild, hax, lookupChild, hay, ih]

theorem setChild_self (cs : List (String × FsNode)) (x : String) (c : FsNode)
    (h : lookupChild cs x = some c) : setChild cs x c = cs := by
  induction cs with
  | nil => simp [lookupChild] at h
  | cons hd tl ih =>
      obtain ⟨a, m⟩ := hd
      by_cases hax : a = x
      · subst hax
        simp [lookupChild] at h
        simp [setChild, h]
      · simp [lookupChild, hax] at h
        simp [setChild, hax, ih h]

theorem find_append (n : FsNode) (p q : Path) :
    n.find (p ++ q) = (n.find p).bind fun m => m.find q := by
  induction p generalizing n with
  | nil => simp [FsNode.find]
  | cons x xs ih =>
      cases n with
      | file c => simp [FsNode.find]
      | dir cs =>
          cases h : lookupChild cs x <;> simp [FsNode.find, h, ih]

/-! ## Divergence lemmas -/

theorem divergeb_extend (p q r : Path) (h : divergeb p q = true) :
    divergeb (p ++ r) q = true := by
  induction p generalizing q with
  | nil => simp [divergeb] at h
  | cons a as ih =>
      cases q with
      | nil => simp [divergeb] at h
      | cons b bs =>
          simp only [divergeb, Bool.or_eq_true, decide_eq_true_eq] at h ⊢
          rcases h with h | h
          · exact Or.inl h
          · exact Or.inr (ih bs h)

theorem divergeb_append_left (base : Path) (x y : String) (rx ry : Path) (h : x ≠ y) :
    divergeb (base ++ x :: rx) (base ++ y :: ry) = true := by
  induction base with
  | nil => simp [divergeb, h]
  | cons a as ih => simp [divergeb, ih]

/-! ## `mkdirp` lemmas -/

theorem mkdirp_noop (p : Path) (n : FsNode) (d : List (String × FsNode))
    (h : n.find p = some (.dir d)) : n.mkdirp p = some n := by
  induction p generalizing n with
  | nil =>
      cases n with
      | file c => simp [FsNode.find] at h
      | dir cs => simp [FsNode.mkdirp]
  | cons x xs ih =>
      cases n with
      | file c => simp [FsNode.find] at h
      | dir cs =>
          cases hl : lookupChild cs x with
          | none => simp [FsNode.find, hl] at h
          | some c =>
              simp only [FsNode.find, hl] at h
              simp [FsNode.mkdirp, hl, ih c h, setChild_self cs x c hl]

theorem mkdirp_keepsFile (p : Path) (n n' : FsNode) (h : n.mkdirp p = some n') :
    KeepsFiles n n' := by
  induction p generalizing n n' with
  | nil =>
      cases n with
      | file c => simp [FsNode.mkdirp] at h
      | dir cs =>
          simp only [FsNode.mkdirp, Option.some.injEq] at h
          subst h; exact fun q s hq => hq
  | cons x xs ih =>
      cases n with
      | file c => simp [FsNode.mkdirp] at h
      | dir cs =>
          intro q s hq
          cases q with
          | nil => simp [FsNode.find] at hq
          | cons y ys =>
              simp only [FsNode.find] at hq
              cases hl : lookupChild cs y with
              | none => simp [hl] at hq
              | some c =>
                  simp only [hl] at hq
                  by_cases hyx : y = x
                  · subst hyx
                    simp only [FsNode.mkdirp, hl] at h
                    cases hm : c.mkdirp xs with
                    | none => simp [hm] at h
                    | some c' =>
                        simp only [hm, Option.some.injEq] at h
                        subst h
                        simp [FsNode.find, lookupChild_setChild_self]
                        exact ih c c' hm ys s hq
                  · simp only [FsNode.mkdirp] at h
                    cases hstep : (match lookupChild cs x with
                        | none => FsNode.mkdirp (.dir []) xs
                        | some c => FsNode.mkdirp c xs) with
                    | none => rw [hstep] at h; simp at h
                    | some c' =>
                        rw [hstep] at h
                        simp only [Option.some.injEq] at h
                        subst h
                        simp [FsNode.find, lookupChild_setChild_of_ne _ _ _ _ hyx, hl, hq]

theorem mkdirp_keepsNode (p : Path) (n n' : FsNode) (h : n.mkdirp p = some n') :
    Grows n n' := by
  induction p generalizing n n' with
  | nil =>
      cases n with
      | file c => simp [FsNode.mkdirp] at h
      | dir cs =>
          simp only [FsNode.mkdirp, Option.some.injEq] at h
          subst h; exact fun q hq => hq
  | cons x xs ih =>
      cases n with
      | file c => simp [FsNode.mkdirp] at h
      | dir cs =>
          intro q hq
          cases q with
          | nil => simp [FsNode.find]
          | cons y ys =>
              simp only [FsNode.find] at hq
              cases hl : lookupChild cs y with
              | none => simp [hl, Option.isSome] at hq
              | some c =>
                  simp only [hl] at hq
                  by_cases hyx : y = x
                  · subst hyx
                    simp only [FsNode.mkdirp, hl] at h
                    cases hm : c.mkdirp xs with
                    | none => simp [hm] at h
                    | some c' =>
                        simp only [hm, Option.some.injEq] at h
                        subst h
                        simp only [FsNode.find, lookupChild_setChild_self]
                        exact ih c c' hm ys hq
                  · simp only [FsNode.mkdirp] at h
                    cases hstep : (match lookupChild cs x with
                        | none => FsNode.mkdirp (.dir []) xs
                        | some c => FsNode.mkdirp c xs) with
                    | none => rw [hstep] at h; simp at h
                    | some c' =>
                        rw [hstep] at h
                        simp only [Option.some.injEq] at h
                        subst h
                        simp [FsNode.find, lookupChild_setChild_of_ne _ _ _ _ hyx, hl, hq]

theorem mkdirp_keepsDir (p : Path) (n n' : FsNode) (h : n.mkdirp p = some n') :
    KeepsDirs n n' := by
  induction p generalizing n n' with
  | nil =>
      cases n with
      | file c => simp [FsNode.mkdirp] at h
      | dir cs =>
          simp only [FsNode.mkdirp, Option.some.injEq] at h
          subst h; exact fun q d hq => ⟨d, hq⟩
  | cons x xs ih =>
      cases n with
      | file c => simp [FsNode.mkdirp] at h
      | dir cs =>
          intro q d hq
          cases q with
          | nil =>
              simp only [FsNode.find, Option.some.injEq] at hq
              simp only [FsNode.mkdirp] at h
              cases hstep : (match lookupChild cs x with
                  | none => FsNode.mkdirp (.dir []) xs
                  | some c => FsNode.mkdirp c xs) with
              | none => rw [hstep] at h; simp at h
              | some c' =>
                  rw [hstep] at h
                  simp only [Option.some.injEq] at h
                  subst h
                  exact ⟨_, rfl⟩
          | cons y ys =>
              simp only [FsNode.find] at hq
              cases hl : lookupChild cs y with
              | none => simp [hl] at hq
              | some c =>
                  simp only [hl] at hq
                  by_cases hyx : y = x
                  · subst hyx
                    simp only [FsNode.mkdirp, hl] at h
                    cases hm : c.mkdirp xs with
                    | none => simp [hm] at h
                    | some c' =>
                        simp only [hm, Option.some.injEq] at h
                        subst h
                        simp only [FsNode.find, lookupChild_setChild_self]
                        exact ih c c' hm ys d hq
                  · simp only [FsNode.mkdirp] at h
                    cases hstep : (match lookupChild cs x with
                        | none => FsNode.mkdirp (.dir []) xs
                        | some c => FsNode.mkdirp c xs) with
                    | none => rw [hstep] at h; simp at h
                    | some c' =>
                        rw [hstep] at h
                        simp only [Option.some.injEq] at h
                        subst h
                        refine ⟨d, ?_⟩
                        simp [FsNode.find, lookupChild_setChild_of_ne _ _ _ _ hyx, hl, hq]

theorem mkdirp_fileBack (p : Path) (n n' : FsNode) (h : n.mkdirp p = some n')
    (q : Path) (s : String) (hq : n'.find q = some (.file s)) :
    n.find q = some (.file s) := by
  induction p generalizing n n' q with
  | nil =>
      cases n with
      | file c => simp [FsNode.mkdirp] at h
      | dir cs =>
          simp only [FsNode.mkdirp, Option.some.injEq] at h
          subst h; exact hq
  | cons x xs ih =>
      cases n with
      | file c => simp [FsNode.mkdirp] at h
      | dir cs =>
          simp only [FsNode.mkdirp] at h
          cases hstep : (match lookupChild cs x with
              | none => FsNode.mkdirp (.dir []) xs
              | some c => FsNode.mkdirp c xs) with
          | none => rw [hstep] at h; simp at h
          | some c' =>
              rw [hstep] at h
              simp only [Option.some.injEq] at h
              subst h
              cases q with
              | nil => simp [FsNode.find] at hq
              | cons y ys =>
                  simp only [FsNode.find] at hq ⊢
                  by_cases hyx : y = x
                  · subst hyx
                    rw [lookupChild_setChild_self] at hq
                    cases hl : lookupChild cs y with
                    | none =>
                        rw [hl] at hstep
                        have := ih _ _ hstep ys hq
                        cases ys with
                        | nil => simp [FsNode.find] at this
                        | cons z zs => simp [FsNode.find, lookupChild] at this
                    | some c =>
                        rw [hl] at hstep
                        exact ih _ _ hstep ys hq
                  · rw [lookupChild_setChild_of_ne _ _ _ _ hyx] at hq
                    exact hq

theorem mkdirp_frame (p q : Path) (hd : divergeb p q = true) (n n' : FsNode)
    (h : n.mkdirp p = some n') : n'.find q = n.find q := by
  induction p generalizing n n' q with
  | nil => simp [divergeb] at hd
  | cons x xs ih =>
      cases q with
      | nil => simp [divergeb] at hd
      | cons y ys =>
          simp only [divergeb, Bool.or_eq_true, decide_eq_true_eq] at hd
          cases n with
          | file c => simp [FsNode.mkdirp] at h
          | dir cs =>
              simp only [FsNode.mkdirp] at h
              cases hstep : (match lookupChild cs x with
                  | none => FsNode.mkdirp (.dir []) xs
                  | some c => FsNode.mkdirp c xs) with
              | none => rw [hstep] at h; simp at h
              | some c' =>
                  rw [hstep] at h
                  simp only [Option.some.injEq] at h
                  subst h
                  by_cases hyx : y = x
                  · subst hyx
                    rcases hd with hd | hd
                    · exact absurd rfl hd
                    · simp only [FsNode.find, lookupChild_setChild_self]
                      cases hl : lookupChild cs y with
                      | none =>
                          rw [hl] at hstep
                          rw [ih _ hd _ _ hstep]
                          cases ys with
                          | nil => cases xs <;> simp [divergeb] at hd
                          | cons z zs => simp [FsNode.find, lookupChild, hl]
                      | some c =>
                          rw [hl] at hstep
                          exact ih _ hd _ _ hstep
                  · simp [FsNode.find, lookupChild_setChild_of_ne _ _ _ _ hyx]

theorem mkdirp_fresh (p : Path) (n n' : FsNode) (habs : n.find p = none)
    (h : n.mkdirp p = some n') : n'.find p = some (.dir []) := by
  induction p generalizing n n' with
  | nil => simp [FsNode.find] at habs
  | cons x xs ih =>
      cases n with
      | file c => simp [FsNode.mkdirp] at h
      | dir cs =>
          simp only [FsNode.mkdirp] at h
          cases hstep : (match lookupChild cs x with
              | none => FsNode.mkdirp (.dir []) xs
              | some c => FsNode.mkdirp c xs) with
          | none => rw [hstep] at h; simp at h
          | some c' =>
              rw [hstep] at h
              simp only [Option.some.injEq] at h
              subst h
              simp only [FsNode.find, lookupChild_setChild_self]
              cases hl : lookupChild cs x with
              | none =>
                  rw [hl] at hstep
                  cases xs with
                  | nil =>
                      simp only [FsNode.mkdirp, Option.some.injEq] at hstep
                      subst hstep
                      simp [FsNode.find]
                  | cons z zs =>
                      exact ih _ _ (by simp [FsNode.find, lookupChild]) hstep
              | some c =>
                  rw [hl] at hstep
                  simp only [FsNode.find, hl] at habs
                  exact ih _ _ habs hstep

theorem mkdirp_total_under (par : Path) (x : String) (n : FsNode)
    (ds : List (String × FsNode)) (hpar : n.find par = some (.dir ds))
    (hch : lookupChild ds x = none) :
    ∃ n', n.mkdirp (par ++ [x]) = some n' := by
  induction par generalizing n with
  | nil =>
      simp only [FsNode.find, Option.some.injEq] at hpar
      subst hpar
      simp [FsNode.mkdirp, hch]
  | cons z zs ih =>
      cases n with
      | file c => simp [FsNode.find] at hpar
      | dir cs =>
          simp only [FsNode.find] at hpar
          cases hl : lookupChild cs z with
          | none => simp [hl] at hpar
          | some c =>
              rw [hl] at hpar
              obtain ⟨c', hc'⟩ := ih c hpar
              refine ⟨.dir (setChild cs z c'), ?_⟩
              simp [FsNode.mkdirp, hl, hc']

/-! ## `setFile` lemmas -/

theorem setFile_makes (p : Path) (c : String) (n n' : FsNode)
    (h : n.setFile p c = some n') : n'.find p = some (.file c) := by
  induction p generalizing n n' with
  | nil => simp [FsNode.setFile] at h
  | cons x xs ih =>
      cases n with
      | file s => simp [FsNode.setFile] at h
      | dir cs =>
          cases xs with
          | nil =>
              cases hl : lookupChild cs x with
              | none =>
                  simp only [FsNode.setFile, hl, Option.some.injEq] at h
                  subst h
                  simp [FsNode.find, lookupChild_setChild_self]
              | some ch =>
                  cases ch with
                  | dir d => simp [FsNode.setFile, hl] at h
                  | file s =>
                      simp only [FsNode.setFile, hl, Option.some.injEq] at h
                      subst h
                      simp [FsNode.find, lookupChild_setChild_self]
          | cons y ys =>
              cases hl : lookupChild cs x with
              | none => simp [FsNode.setFile, hl] at h
              | some ch =>
                  cases hs : ch.setFile (y :: ys) c with
                  | none => simp [FsNode.setFile, hl, hs] at h
                  | some ch' =>
                      simp only [FsNode.setFile, hl, hs, Option.some.injEq] at h
                      subst h
                      simp only [FsNode.find, lookupChild_setChild_self]
                      exact ih _ _ hs

theorem setFile_keepsNode (p : Path) (c : String) (n n' : FsNode)
    (h : n.setFile p c = some n') : Grows n n' := by
  induction p generalizing n n' with
  | nil => simp [FsNode.setFile] at h
  | cons x xs ih =>
      cases n with
      | file s => simp [FsNode.setFile] at h
      | dir cs =>
          intro q hq
          cases q with
          | nil => simp [FsNode.find]
          | cons z zs =>
              simp only [FsNode.find] at hq
              cases hlz : lookupChild cs z with
              | none => simp [hlz, Option.isSome] at hq
              | some cz =>
                  rw [hlz] at hq
                  cases xs with
                  | nil =>
                      cases hl : lookupChild cs x with
                      | none =>
                          simp only [FsNode.setFile, hl, Option.some.injEq] at h
                          subst h
                          by_cases hzx : z = x
                          · subst hzx
                            rw [hl] at hlz; cases hlz
                          · simp [FsNode.find,
                              lookupChild_setChild_of_ne _ _ _ _ hzx, hlz, hq]
                      | some ch =>
                          cases ch with
                          | dir d => simp [FsNode.setFile, hl] at h
                          | file s =>
                              simp only [FsNode.setFile, hl, Option.some.injEq] at h
                              subst h
                              by_cases hzx : z = x
                              · subst hzx
                                rw [hl] at hlz
                                cases hlz
                                simp only [FsNode.find, lookupChild_setChild_self]
                                cases zs with
                                | nil => simp [FsNode.find]
                                | cons w ws => simp [FsNode.find] at hq
                              · simp [FsNode.find,
                                  lookupChild_setChild_of_ne _ _ _ _ hzx, hlz, hq]
                  | cons y ys =>
                      cases hl : lookupChild cs x with
                      | none => simp [FsNode.setFile, hl] at h
                      | some ch =>
                          cases hs : ch.setFile (y :: ys) c with
                          | none => simp [FsNode.setFile, hl, hs] at h
                          | some ch' =>
                              simp only [FsNode.setFile, hl, hs, Option.some.injEq] at h
                              subst h
                              by_cases hzx : z = x
                              · subst hzx
                                rw [hl] at hlz
                                cases hlz
                                simp only [FsNode.find, lookupChild_setChild_self]
                                exact ih _ _ hs zs hq
                              · simp [FsNode.find,
                                  lookupChild_setChild_of_ne _ _ _ _ hzx, hlz, hq]

theorem setFile_keepsFile_ne (p : Path) (c : String) (n n' : FsNode)
    (h : n.setFile p c = some n') (q : Path) (hne : q ≠ p) (s : String)
    (hq : n.find q = some (.file s)) : n'.find q = some (.file s) := by
  induction p generalizing n n' q with
  | nil => simp [FsNode.setFile] at h
  | cons x xs ih =>
      cases n with
      | file s0 => simp [FsNode.setFile] at h
      | dir cs =>
          cases q with
          | nil => simp [FsNode.find] at hq
          | cons z zs =>
              simp only [FsNode.find] at hq
              cases hlz : lookupChild cs z with
              | none => simp [hlz] at hq
              | some cz =>
                  simp only [hlz] at hq
                  cases xs with
                  | nil =>
                      cases hl : lookupChild cs x with
                      | none =>
                          simp only [FsNode.setFile, hl, Option.some.injEq] at h
                          subst h
                          by_cases hzx : z = x
                          · subst hzx; rw [hl] at hlz; cases hlz
                          · simp [FsNode.find,
                              lookupChild_setChild_of_ne _ _ _ _ hzx, hlz, hq]
                      | some ch =>
                          cases ch with
                          | dir d => simp [FsNode.setFile, hl] at h
                          | file s1 =>
                              simp only [FsNode.setFile, hl, Option.some.injEq] at h
                              subst h
                              by_cases hzx : z = x
                              · subst hzx
                                rw [hl] at hlz
                                cases hlz
                                cases zs with
                                | nil => exact absurd rfl hne
                                | cons w ws => simp [FsNode.find] at hq
                              · simp [FsNode.find,
                                  lookupChild_setChild_of_ne _ _ _ _ hzx, hlz, hq]
                  | cons y ys =>
                      cases hl : lookupChild cs x with
                      | none => simp [FsNode.setFile, hl] at h
                      | some ch =>
                          cases hs : ch.setFile (y :: ys) c with
                          | none => simp [FsNode.setFile, hl, hs] at h
                          | some ch' =>
                              simp only [FsNode.setFile, hl, hs, Option.some.injEq] at h
                              subst h
                              by_cases hzx : z = x
                              · subst hzx
                                rw [hl] at hlz
                                cases hlz
                                simp only [FsNode.find, lookupChild_setChild_self]
                                exact ih _ _ hs zs
                                  (fun e => hne (by rw [e])) hq
                              · simp [FsNode.find,
                                  lookupChild_setChild_of_ne _ _ _ _ hzx, hlz, hq]

theorem setFile_keepsDir (p : Path) (c : String) (n n' : FsNode)
    (h : n.setFile p c = some n') : KeepsDirs n n' := by
  induction p generalizing n n' with
  | nil => simp [FsNode.setFile] at h
  | cons x xs ih =>
      cases n with
      | file s0 => simp [FsNode.setFile] at h
      | dir cs =>
          intro q d hq
          cases q with
          | nil =>
              simp only [FsNode.find, Option.some.injEq] at hq
              cases xs with
              | nil =>
                  cases hl : lookupChild cs x with
                  | none =>
                      simp only [FsNode.setFile, hl, Option.some.injEq] at h
                      subst h; exact ⟨_, rfl⟩
                  | some ch =>
                      cases ch with
                      | dir d0 => simp [FsNode.setFile, hl] at h
                      | file s1 =>
                          simp only [FsNode.setFile, hl, Option.some.injEq] at h
                          subst h; exact ⟨_, rfl⟩
              | cons y ys =>
                  cases hl : lookupChild cs x with
                  | none => simp [FsNode.setFile, hl] at h
                  | some ch =>
                      cases hs : ch.setFile (y :: ys) c with
                      | none => simp [FsNode.setFile, hl, hs] at h
                      | some ch' =>
                          simp only [FsNode.setFile, hl, hs, Option.some.injEq] at h
                          subst h; exact ⟨_, rfl⟩
          | cons z zs =>
              simp only [FsNode.find] at hq
              cases hlz : lookupChild cs z with
              | none => simp [hlz] at hq
              | some cz =>
                  simp only [hlz] at hq
                  cases xs with
                  | nil =>
                      cases hl : lookupChild cs x with
                      | none =>
                          simp only [FsNode.setFile, hl, Option.some.injEq] at h
                          subst h
                          by_cases hzx : z = x
                          · subst hzx; rw [hl] at hlz; cases hlz
                          · refine ⟨d, ?_⟩
                            simp [FsNode.find,
                              lookupChild_setChild_of_ne _ _ _ _ hzx, hlz, hq]
                      | some ch =>
                          cases ch with
                          | dir d0 => simp [FsNode.setFile, hl] at h
                          | file s1 =>
                              simp only [FsNode.setFile, hl, Option.some.injEq] at h
                              subst h
                              by_cases hzx : z = x
                              · subst hzx
                                rw [hl] at hlz
                                cases hlz
                                cases zs with
                                | nil => simp [FsNode.find] at hq
                                | cons w ws => simp [FsNode.find] at hq
                              · refine ⟨d, ?_⟩
                                simp [FsNode.find,
                                  lookupChild_setChild_of_ne _ _ _ _ hzx, hlz, hq]
                  | cons y ys =>
                      cases hl : lookupChild cs x with
                      | none => simp [FsNode.setFile, hl] at h
                      | some ch =>
                          cases hs : ch.setFile (y :: ys) c with
                          | none => simp [FsNode.setFile, hl, hs] at h
                          | some ch' =>
                              simp only [FsNode.setFile, hl, hs, Option.some.injEq] at h
                              subst h
                              by_cases hzx : z = x
                              · subst hzx
                                rw [hl] at hlz
                                cases hlz
                                obtain ⟨d', hd'⟩ := ih _ _ hs zs d hq
                                refine ⟨d', ?_⟩
                                simp only [FsNode.find, lookupChild_setChild_self]
                                exact hd'
                              · refine ⟨d, ?_⟩
                                simp [FsNode.find,
                                  lookupChild_setChild_of_ne _ _ _ _ hzx, hlz, hq]

theorem setFile_frame (p q : Path) (hd : divergeb p q = true) (c : String)
    (n n' : FsNode) (h : n.setFile p c = some n') : n'.find q = n.find q := by
  induction p generalizing n n' q with
  | nil => simp [divergeb] at hd
  | cons x xs ih =>
      cases q with
      | nil => simp [divergeb] at hd
      | cons z zs =>
          simp only [divergeb, Bool.or_eq_true, decide_eq_true_eq] at hd
          cases n with
          | file s0 => simp [FsNode.setFile] at h
          | dir cs =>
              cases xs with
              | nil =>
                  have step : ∃ rest, n' = FsNode.dir (setChild cs x (.file c)) ∧ rest = true := by
                    cases hl : lookupChild cs x with
                    | none =>
                        simp only [FsNode.setFile, hl, Option.some.injEq] at h
                        exact ⟨true, h.symm, rfl⟩
                    | some ch =>
                        cases ch with
                        | dir d0 => simp [FsNode.setFile, hl] at h
                        | file s1 =>
                            simp only [FsNode.setFile, hl, Option.some.injEq] at h
                            exact ⟨true, h.symm, rfl⟩
                  obtain ⟨_, hn', -⟩ := step
                  subst hn'
                  by_cases hzx : z = x
                  · subst hzx
                    rcases hd with hd | hd
                    · exact absurd rfl hd
                    · cases zs <;> simp [divergeb] at hd
                  · simp [FsNode.find, lookupChild_setChild_of_ne _ _ _ _ hzx]
              | cons y ys =>
                  cases hl : lookupChild cs x with
                  | none => simp [FsNode.setFile, hl] at h
                  | some ch =>
                      cases hs : ch.setFile (y :: ys) c with
                      | none => simp [FsNode.setFile, hl, hs] at h
                      | some ch' =>
                          simp only [FsNode.setFile, hl, hs, Option.some.injEq] at h
                          subst h
                          by_cases hzx : z = x
                          · subst hzx
                            rcases hd with hd | hd
                            · exact absurd rfl hd
                            · simp only [FsNode.find, lookupChild_setChild_self, hl]
                              exact ih _ hd _ _ hs
                          · simp [FsNode.find, lookupChild_setChild_of_ne _ _ _ _ hzx]

theorem setFile_total (par : Path) (x : String) (c : String) (n : FsNode)
    (ds : List (String × FsNode)) (hpar : n.find par = some (.dir ds))
    (hch : lookupChild ds x = none) :
    ∃ n', n.setFile (par ++ [x]) c = some n' := by
    induction par generalizing n with
    | nil =>
        simp only [FsNode.find, Option.some.injEq] at hpar
        subst hpar
        simp [FsNode.setFile, hch]
    | cons z zs ih =>
        cases n with
        | file s0 => simp [FsNode.find] at hpar
        | dir cs =>
            simp only [FsNode.find] at hpar
            cases hl : lookupChild cs z with
            | none => simp [hl] at hpar
            | some ch =>
                simp only [hl] at hpar
                obtain ⟨c', hc'⟩ := ih ch hpar
                refine ⟨.dir (setChild cs z c'), ?_⟩
                cases zs with
                | nil =>
                    simp only [List.nil_append] at hc' ⊢
                    simp [FsNode.setFile, hl, hc']
                | cons w ws =>
                    simp only [List.cons_append] at hc' ⊢
                    simp [FsNode.setFile, hl, hc']

/-! ## The safety relation

`Safe no a b` collects what one CLI mutation step can do to the tree: it
never deletes (`Grows`), never turns a directory into anything else
(`KeepsDirs`), and — when `no` records that overwriting is disabled — never
changes the contents of an existing file (`KeepsFiles`). -/

def Safe (no : Bool) (a b : FsNode) : Prop :=
  Grows a b ∧ KeepsDirs a b ∧ (no = true → KeepsFiles a b)

theorem safe_refl (no : Bool) (a : FsNode) : Safe no a a :=
  ⟨fun _ h => h, fun _ d h => ⟨d, h⟩, fun _ _ _ h => h⟩

theorem safe_trans {no : Bool} {a b c : FsNode} (h1 : Safe no a b)
    (h2 : Safe no b c) : Safe no a c := by
  refine ⟨fun q hq => h2.1 q (h1.1 q hq), fun q d hq => ?_, fun hno q s hq => ?_⟩
  · obtain ⟨d', hd'⟩ := h1.2.1 q d hq
    exact h2.2.1 q d' hd'
  · exact h2.2.2 hno q s (h1.2.2 hno q s hq)

theorem safe_mono {no : Bool} {a b : FsNode} (h : Safe true a b) : Safe no a b :=
  ⟨h.1, h.2.1, fun _ => h.2.2 rfl⟩

theorem mkdirp_safe (no : Bool) {p : Path} {n n' : FsNode}
    (h : n.mkdirp p = some n') : Safe no n n' :=
  ⟨mkdirp_keepsNode p n n' h, mkdirp_keepsDir p n n' h,
    fun _ => mkdirp_keepsFile p n n' h⟩

theorem setFile_safe (no : Bool) {p : Path} {c : String} {n n' : FsNode}
    (h : n.setFile p c = some n')
    (habs : no = true → ∀ s, n.find p ≠ some (.file s)) : Safe no n n' := by
  refine ⟨setFile_keepsNode p c n n' h, setFile_keepsDir p c n n' h, fun hno q s hq => ?_⟩
  refine setFile_keepsFile_ne p c n n' h q (fun hqp => ?_) s hq
  exact habs hno s (hqp ▸ hq)

/-- Safety of one whole command run, dead or alive. -/
def SafeM {α : Type} (no : Bool) (m : FsM α) : Prop :=
  ∀ fs, Safe no fs (stateAfter m fs)

theorem safeM_bind {α β : Type} {no : Bool} {m : FsM α} {f : α → FsM β}
    (hm : SafeM no m) (hf : ∀ a, SafeM no (f a)) : SafeM no (m >>= f) := by
  intro fs
  have happ : (m >>= f) fs = (match m fs with
    | .ok (a, fs1) => f a fs1
    | .error e => .error e) := rfl
  cases h : m fs with
  | ok p =>
      obtain ⟨a, fs1⟩ := p
      have h1 : stateAfter m fs = fs1 := by simp [stateAfter, h]
      have h2 : stateAfter (m >>= f) fs = stateAfter (f a) fs1 := by
        simp [stateAfter, happ, h]
      rw [h2]
      exact safe_trans (h1 ▸ hm fs) (hf a fs1)
  | error e =>
      have h1 : stateAfter m fs = e.2 := by simp [stateAfter, h]
      have h2 : stateAfter (m >>= f) fs = e.2 := by
        simp [stateAfter, happ, h]
      rw [h2]
      exact h1 ▸ hm fs

theorem safeM_pure {α : Type} (no : Bool) (a : α) : SafeM no (pure a : FsM α) :=
  fun _ => safe_refl _ _

theorem safeM_getFs (no : Bool) : SafeM no getFs :=
  fun _ => safe_refl _ _

theorem safeM_exitWith {α : Type} (no : Bool) (code : Nat) :
    SafeM no (exitWith (α := α) code) :=
  fun _ => safe_refl _ _

theorem safeM_fsCrash {α : Type} (no : Bool) : SafeM no (fsCrash (α := α)) :=
  fun _ => safe_refl _ _

theorem safeM_doMkdirp (no : Bool) (p : Path) : SafeM no (doMkdirp p) := by
  intro fs
  cases h : fs.mkdirp p with
  | none => simp [stateAfter, doMkdirp, h]; exact safe_refl _ _
  | some fs' =>
      have : stateAfter (doMkdirp p) fs = fs' := by simp [stateAfter, doMkdirp, h]
      rw [this]
      exact mkdirp_safe no h

theorem copyEntries_safe (cs : List (String × FsNode)) (tgt : Path)
    (force : Bool) (fs : FsNode) :
    Safe (!force) fs (copyEntries cs tgt force fs).1 := by
  induction cs, tgt, force, fs using copyEntries.induct with
  | case1 tgt force fs => exact safe_refl _ _
  | case2 name cs rest tgt force fs hmk =>
      rw [copyEntries]
      simp only [hmk]
      exact safe_refl _ _
  | case3 name cs rest tgt force fs c hmk fs2 hin ih1 ih2 =>
      rw [copyEntries]
      simp only [hmk, hin]
      rw [hin] at ih1
      exact safe_trans (mkdirp_safe _ hmk) (safe_trans ih1 ih2)
  | case4 name cs rest tgt force fs c hmk hfalse ih =>
      rw [copyEntries]
      simp only [hmk]
      cases hin : copyEntries cs (tgt ++ [name]) force c with
      | mk fs2 ok =>
          cases ok with
          | true => exact absurd hin (fun hh => hfalse fs2 hh)
          | false =>
              simp only
              rw [hin] at ih
              exact safe_trans (mkdirp_safe _ hmk) ih
  | case5 name c rest tgt force fs hguard hsf =>
      rw [copyEntries]
      simp only [hguard, if_true, hsf]
      exact safe_refl _ _
  | case6 name c rest tgt force fs hguard c1 hsf ih =>
      rw [copyEntries]
      simp only [hguard, if_true, hsf]
      refine safe_trans (setFile_safe _ hsf ?_) ih
      intro hno s hfind
      cases force with
      | true => simp at hno
      | false =>
          simp only [Bool.or_false, Bool.not_eq_true'] at hguard
          simp [existsb, hfind] at hguard
  | case7 name c rest tgt force fs hguard ih =>
      rw [copyEntries]
      simp only [hguard, if_false]
      exact ih

/-! ## Unfolding lemmas for command runs -/

theorem fsm_bind_eq {α β : Type} (m : FsM α) (f : α → FsM β) :
    (m >>= f) = FsM.bind m f := rfl

theorem fsm_pure_eq {α : Type} (a : α) : (pure a : FsM α) = FsM.pure a := rfl

theorem fsm_bind_apply {α β : Type} (m : FsM α) (f : α → FsM β) (fs : FsNode) :
    FsM.bind m f fs = (match m fs with
      | .ok (a, fs') => f a fs'
      | .error e => .error e) := rfl

theorem stateAfter_pure {α : Type} (a : α) (fs : FsNode) :
    stateAfter (FsM.pure a) fs = fs := rfl

theorem stateAfter_bind {α β : Type} (m : FsM α) (f : α → FsM β) (fs : FsNode) :
    stateAfter (FsM.bind m f) fs = (match m fs with
      | .ok (a, fs') => stateAfter (f a) fs'
      | .error e => e.2) := by
  cases h : m fs with
  | ok p => obtain ⟨a, fs'⟩ := p; simp [stateAfter, fsm_bind_apply, h]
  | error e => simp [stateAfter, fsm_bind_apply, h]

theorem getFs_apply (fs : FsNode) : getFs fs = .ok (fs, fs) := rfl

theorem exitWith_apply {α : Type} (code : Nat) (fs : FsNode) :
    (exitWith (α := α) code) fs = .error (.exited code, fs) := rfl

theorem fsCrash_apply {α : Type} (fs : FsNode) :
    (fsCrash (α := α)) fs = .error (.fsError, fs) := rfl

theorem doMkdirp_apply (p : Path) (fs : FsNode) :
    doMkdirp p fs = (match fs.mkdirp p with
      | none => .error (.fsError, fs)
      | some fs' => .ok ((), fs')) := rfl

theorem doSetFile_apply (p : Path) (c : String) (fs : FsNode) :
    doSetFile p c fs = (match fs.setFile p c with
      | none => .error (.fsError, fs)
      | some fs' => .ok ((), fs')) := rfl

theorem doCopyDirectory_apply (src tgt : Path) (force : Bool) (fs : FsNode) :
    doCopyDirectory src tgt force fs = (match copyDirectory fs src tgt force with
      | (fs', true) => .ok ((), fs')
      | (fs', false) => .error (.fsError, fs')) := rfl

theorem doMkdirpIfMissing_apply (p : Path) (fs : FsNode) :
    doMkdirpIfMissing p fs =
      (if existsb fs p then .ok ((), fs) else doMkdirp p fs) := rfl

theorem doSetFileIfMissing_apply (p : Path) (c : String) (fs : FsNode) :
    doSetFileIfMissing p c fs =
      (if existsb fs p then .ok ((), fs) else doSetFile p c fs) := rfl

theorem stateAfter_bind_pure {α β : Type} (m : FsM α) (g : α → β) (fs : FsNode) :
    stateAfter (FsM.bind m fun a => FsM.pure (g a)) fs = stateAfter m fs := by
  rw [stateAfter_bind]
  cases h : m fs with
  | ok p => obtain ⟨a, fs'⟩ := p; simp [stateAfter, FsM.pure, h]
  | error e => simp [stateAfter, h]

theorem copyDirectory_safe (fs : FsNode) (src tgt : Path) (force : Bool) :
    Safe (!force) fs (copyDirectory fs src tgt force).1 := by
  rw [copyDirectory]
  cases h : fs.find src with
  | none => exact safe_refl _ _
  | some n =>
      cases n with
      | file c => exact safe_refl _ _
      | dir cs =>
          cases hm : fs.mkdirp tgt with
          | none => exact safe_refl _ _
          | some fs1 =>
              simp only
              exact safe_trans (mkdirp_safe _ hm) (copyEntries_safe cs tgt force fs1)

theorem safeM_doCopyDirectory (src tgt : Path) (force : Bool) :
    SafeM (!force) (doCopyDirectory src tgt force) := by
  intro fs
  have h := copyDirectory_safe fs src tgt force
  cases hc : copyDirectory fs src tgt force with
  | mk fs' ok =>
      rw [hc] at h
      cases ok with
      | true =>
          have : stateAfter (doCopyDirectory src tgt force) fs = fs' := by
            simp [stateAfter, doCopyDirectory_apply, hc]
          rw [this]; exact h
      | false =>
          have : stateAfter (doCopyDirectory src tgt force) fs = fs' := by
            simp [stateAfter, doCopyDirectory_apply, hc]
          rw [this]; exact h

theorem safeM_ite {α : Type} {no : Bool} {c : Prop} [Decidable c] {m1 m2 : FsM α}
    (h1 : SafeM no m1) (h2 : SafeM no m2) : SafeM no (if c then m1 else m2) := by
  by_cases hc : c
  · rwa [if_pos hc]
  · rwa [if_neg hc]

theorem safeM_getFs_bind {α : Type} {no : Bool} {k : FsNode → FsM α}
    (hk : ∀ f0, Safe no f0 (stateAfter (k f0) f0)) : SafeM no (getFs >>= k) :=
  fun fs => hk fs

theorem safeM_doSetFile_absent (no : Bool) (p : Path) (c : String) (f0 : FsNode)
    (habs : no = true → ∀ s, f0.find p ≠ some (.file s)) :
    Safe no f0 (stateAfter (doSetFile p c) f0) := by
  cases hsf : f0.setFile p c with
  | none =>
      have : stateAfter (doSetFile p c) f0 = f0 := by
        simp [stateAfter, doSetFile_apply, hsf]
      rw [this]; exact safe_refl _ _
  | some f1 =>
      have : stateAfter (doSetFile p c) f0 = f1 := by
        simp [stateAfter, doSetFile_apply, hsf]
      rw [this]; exact setFile_safe no hsf habs
theorem safeM_doMkdirpIfMissing (no : Bool) (p : Path) :
    SafeM no (doMkdirpIfMissing p) := by
  intro fs
  by_cases h : existsb fs p = true
  · have heq : stateAfter (doMkdirpIfMissing p) fs = fs := by
      simp [stateAfter, doMkdirpIfMissing_apply, h]
    rw [heq]; exact safe_refl _ _
  · have heq : stateAfter (doMkdirpIfMissing p) fs = stateAfter (doMkdirp p) fs := by
      simp [stateAfter, doMkdirpIfMissing_apply, h]
    rw [heq]; exact safeM_doMkdirp no p fs

theorem safeM_doSetFileIfMissing (no : Bool) (p : Path) (c : String) :
    SafeM no (doSetFileIfMissing p c) := by
  intro fs
  by_cases h : existsb fs p = true
  · have heq : stateAfter (doSetFileIfMissing p c) fs = fs := by
      simp [stateAfter, doSetFileIfMissing_apply, h]
    rw [heq]; exact safe_refl _ _
  · have heq : stateAfter (doSetFileIfMissing p c) fs = stateAfter (doSetFile p c) fs := by
      simp [stateAfter, doSetFileIfMissing_apply, h]
    rw [heq]
    refine safeM_doSetFile_absent _ _ _ _ fun _ s hfind => ?_
    exact h (by simp [existsb, hfind])

theorem runOps_safe (opts : Options) (ops : List TransferOp) :
    SafeM (!opts.force) (runOps opts ops) := by
  induction ops with
  | nil => intro fs; exact safe_refl _ _
  | cons op rest ih =>
      intro fs
      rw [runOps]
      simp only [fsm_bind_eq, fsm_pure_eq]
      rw [stateAfter_bind]
      simp only [getFs_apply]
      by_cases hdry : opts.dryRun = true
      · rw [if_pos hdry, stateAfter_bind_pure]
        exact ih fs
      · rw [if_neg hdry]
        by_cases hskip : (existsb fs op.tgt && !opts.force) = true
        · rw [if_pos hskip, stateAfter_bind_pure]
          exact ih fs
        · rw [if_neg hskip]
          cases hsrc : fs.find op.src with
          | none =>
              simp only [stateAfter, fsCrash_apply]
              exact safe_refl _ _
          | some n =>
              cases n with
              | dir cs =>
                  simp only
                  rw [stateAfter_bind]
                  simp only [doCopyDirectory_apply]
                  cases hc : copyDirectory fs op.src op.tgt opts.force with
                  | mk fs1 ok =>
                      have hsafe1 := copyDirectory_safe fs op.src op.tgt opts.force
                      rw [hc] at hsafe1
                      cases ok with
                      | true =>
                          simp only
                          rw [stateAfter_bind_pure]
                          exact safe_trans hsafe1 (ih fs1)
                      | false => simp only; exact hsafe1
              | file c =>
                  simp only
                  rw [stateAfter_bind]
                  simp only [doMkdirpIfMissing_apply]
                  by_cases hpar : existsb fs op.tgt.dropLast = true
                  · rw [if_pos hpar]
                    simp only
                    rw [stateAfter_bind]
                    simp only [doSetFile_apply]
                    cases hsf : fs.setFile op.tgt c with
                    | none => exact safe_refl _ _
                    | some fs2 =>
                        simp only
                        rw [stateAfter_bind_pure]
                        refine safe_trans (setFile_safe _ hsf ?_) (ih fs2)
                        intro hno s hfind
                        have hforce : opts.force = false := by
                          cases hof : opts.force with
                          | false => rfl
                          | true => rw [hof] at hno; simp at hno
                        have hex : existsb fs op.tgt = true := by
                          simp [existsb, hfind]
                        rw [hex, hforce] at hskip
                        simp at hskip
                  · rw [if_neg hpar]
                    simp only [doMkdirp_apply]
                    cases hmk : fs.mkdirp op.tgt.dropLast with
                    | none => exact safe_refl _ _
                    | some fs1 =>
                        simp only
                        rw [stateAfter_bind]
                        simp only [doSetFile_apply]
                        cases hsf : fs1.setFile op.tgt c with
                        | none => simp only; exact mkdirp_safe _ hmk
                        | some fs2 =>
                            simp only
                            rw [stateAfter_bind_pure]
                            refine safe_trans (mkdirp_safe _ hmk)
                              (safe_trans (setFile_safe _ hsf ?_) (ih fs2))
                            intro hno s hfind
                            have hback := mkdirp_fileBack _ _ _ hmk op.tgt s hfind
                            have hforce : opts.force = false := by
                              cases hof : opts.force with
                              | false => rfl
                              | true => rw [hof] at hno; simp at hno
                            have hex : existsb fs op.tgt = true := by
                              simp [existsb, hback]
                            rw [hex, hforce] at hskip
                            simp at hskip


theorem initTool_safe (name : String) (cwd : Path) (now : String) :
    SafeM true (initTool name cwd now) := by
  rw [initTool]
  cases hp : parseTool name with
  | none => exact safeM_exitWith _ _
  | some t =>
      exact safeM_bind (safeM_doMkdirpIfMissing _ _) fun _ =>
        safeM_bind (safeM_doMkdirpIfMissing _ _) fun _ =>
          safeM_bind (safeM_doMkdirpIfMissing _ _) fun _ =>
            safeM_doSetFileIfMissing _ _ _

theorem safe_false {a b : FsNode} {no : Bool} (h : Safe no a b) : Safe false a b :=
  ⟨h.1, h.2.1, by simp⟩

theorem copyEntry_safe (no : Bool) (src tgt : Path) (force : Bool) (f0 : FsNode)
    (hno : no = true → force = false)
    (habs : no = true → f0.find tgt = none) :
    Safe no f0 (stateAfter (copyEntry src tgt force) f0) := by
  rw [copyEntry]
  simp only [fsm_bind_eq]
  rw [stateAfter_bind]
  simp only [getFs_apply]
  cases hsrc : f0.find src with
  | none =>
      simp only [stateAfter, fsCrash_apply]
      exact safe_refl _ _
  | some n =>
      cases n with
      | dir cs =>
          simp only
          have hcd := safeM_doCopyDirectory src tgt force f0
          cases no with
          | false => exact safe_false hcd
          | true => rw [hno rfl] at hcd ⊢; exact hcd
      | file c =>
          simp only
          refine safeM_doSetFile_absent _ _ _ _ fun hno' s hfind => ?_
          rw [habs hno'] at hfind
          cases hfind

theorem ensureGlobalSkillsDir_safe (no : Bool) (home : Path) :
    SafeM no (ensureGlobalSkillsDir home) :=
  safeM_doMkdirpIfMissing no _

theorem addGlobalSkill_safe (name : String) (src : Option Path) (opts : Options)
    (cwd home : Path) : SafeM (!opts.force) (addGlobalSkill name src opts cwd home) := by
  rw [addGlobalSkill]
  refine safeM_bind (ensureGlobalSkillsDir_safe _ _) fun _ => ?_
  refine safeM_getFs_bind fun f0 => ?_
  cases hres : (match src with
    | some p => some p
    | none =>
        if existsb f0 (cwd ++ [".cursor", "skills", name]) then
          some (cwd ++ [".cursor", "skills", name])
        else if existsb f0 (cwd ++ [".claude", "skills", name]) then
          some (cwd ++ [".claude", "skills", name])
        else none) with
  | none => simp only [hres, stateAfter, exitWith_apply]; exact safe_refl _ _
  | some sp =>
      simp only [hres]
      by_cases hex : existsb f0 sp = true
      · simp only [Bool.not_eq_true'] at hex
        rw [if_neg (by simp [hex])]
        by_cases htgt : existsb f0 (globalDir home ++ [name]) = true
        · rw [if_pos htgt]
          exact safe_refl _ _
        · rw [if_neg htgt]
          refine copyEntry_safe _ _ _ _ _ (fun hno => ?_) (fun _ => ?_)
          · cases hof : opts.force with
            | false => rfl
            | true => rw [hof] at hno; cases hno
          · simp only [existsb, Bool.not_eq_true] at htgt
            exact Option.not_isSome_iff_eq_none.mp (by simp [htgt])
      · rw [if_pos (by simp [Bool.not_eq_true] at hex; simp [hex])]
        simp only [stateAfter, exitWith_apply]
        exact safe_refl _ _

theorem installLoop_safe (no : Bool) (g : Path) (name : String)
    (det : List (Tool × Detected)) (tools : List String) :
    SafeM no (installLoop g name det tools) := by
  induction tools with
  | nil => intro fs; exact safe_refl _ _
  | cons t rest ih =>
      rw [installLoop]
      cases hd : (det.find? (fun p => toolName p.1 = t)).map Prod.snd with
      | none => simpa [hd] using ih
      | some d =>
          simp only [hd]
          refine safeM_getFs_bind fun f0 => ?_
          cases hp : parseTool t with
          | none =>
              simp only [stateAfter, fsCrash_apply]
              exact safe_refl _ _
          | some tl =>
              simp only
              by_cases hex : existsb f0 (d.path ++ [(toolConfig tl).skillsDir, name]) = true
              · rw [if_pos hex]
                exact ih f0
              · rw [if_neg hex]
                rw [fsm_bind_eq, stateAfter_bind]
                have hsafe := copyEntry_safe no g
                  (d.path ++ [(toolConfig tl).skillsDir, name]) false f0
                  (fun _ => rfl)
                  (fun _ => by
                    simp only [existsb, Bool.not_eq_true] at hex
                    exact Option.not_isSome_iff_eq_none.mp (by simp [hex]))
                cases hce : copyEntry g (d.path ++ [(toolConfig tl).skillsDir, name]) false f0 with
                | ok p =>
                    obtain ⟨a, f1⟩ := p
                    have h1 : stateAfter
                        (copyEntry g (d.path ++ [(toolConfig tl).skillsDir, name]) false) f0 = f1 := by
                      simp [stateAfter, hce]
                    rw [h1] at hsafe
                    simp only
                    exact safe_trans hsafe (ih f1)
                | error e =>
                    have h1 : stateAfter
                        (copyEntry g (d.path ++ [(toolConfig tl).skillsDir, name]) false) f0 = e.2 := by
                      simp [stateAfter, hce]
                    rw [h1] at hsafe
                    simp only
                    exact hsafe

theorem installGlobalSkill_safe (no : Bool) (name : String)
    (targetTool : Option String) (cwd home : Path) :
    SafeM no (installGlobalSkill name targetTool cwd home) := by
  rw [installGlobalSkill]
  refine safeM_bind (ensureGlobalSkillsDir_safe _ _) fun _ => ?_
  refine safeM_getFs_bind fun f0 => ?_
  by_cases hg : existsb f0 (globalDir home ++ [name]) = true
  · rw [if_neg (by simp [hg])]
    by_cases hlen : (match targetTool with
        | some t => [t]
        | none => (detectTools cwd f0).map fun (p : Tool × Detected) => toolName p.1).isEmpty = true
    · rw [if_pos hlen]
      simp only [stateAfter, exitWith_apply]
      exact safe_refl _ _
    · rw [if_neg hlen]
      exact installLoop_safe no _ _ _ _ f0
  · rw [if_pos (by simp [Bool.not_eq_true] at hg; simp [hg])]
    simp only [stateAfter, exitWith_apply]
    exact safe_refl _ _

theorem mirror_safe (s t : String) (opts : Options) (cwd : Path) (now : String) :
    SafeM (!opts.force) (mirror s t opts cwd now) := by
  rw [mirror]
  cases hp : parseTool s with
  | none => exact safeM_exitWith _ _
  | some ts =>
      cases hq : parseTool t with
      | none => exact safeM_exitWith _ _
      | some tt =>
          refine safeM_getFs_bind fun f0 => ?_
          simp only
          cases hds : detLookup (detectTools cwd f0) ts with
          | none =>
              simp only [hds, stateAfter, exitWith_apply]
              exact safe_refl _ _
          | some src =>
              simp only [hds]
              have hinit : SafeM (!opts.force)
                  (match detLookup (detectTools cwd f0) tt with
                    | some _ => (pure () : FsM Unit)
                    | none => initTool t cwd now) := by
                cases detLookup (detectTools cwd f0) tt with
                | some d => exact fun fs1 => safe_refl _ _
                | none => exact fun fs1 => safe_mono (initTool_safe t cwd now fs1)
              refine (safeM_bind hinit fun _ => ?_) f0
              refine safeM_getFs_bind fun f1 => ?_
              cases hdt : (match detLookup (detectTools cwd f0) tt with
                  | some d => some d
                  | none => detLookup (detectTools cwd f1) tt) with
              | none =>
                  simp only [hdt, stateAfter, fsCrash_apply]
                  exact safe_refl _ _
              | some tgt =>
                  simp only [hdt]
                  by_cases hops : (collectOps src tgt.path (toolConfig tt) (toolConfig ts) opts).isEmpty = true
                  · rw [if_pos hops]
                    exact safe_refl _ _
                  · rw [if_neg hops]
                    have := safeM_bind (runOps_safe opts
                        (collectOps src tgt.path (toolConfig tt) (toolConfig ts) opts))
                      (fun rs => safeM_pure (!opts.force) (MirrorOutcome.done rs))
                    exact this f1

theorem runPairs_safe (opts : Options) (cwd : Path) (now : String)
    (pairs : List (Tool × Tool)) :
    SafeM (!opts.force) (runPairs opts cwd now pairs) := by
  induction pairs with
  | nil => intro fs; exact safe_refl _ _
  | cons pr rest ih =>
      obtain ⟨a, b⟩ := pr
      rw [runPairs]
      exact safeM_bind (mirror_safe (toolName a) (toolName b) opts cwd now) fun out =>
        safeM_bind ih fun rs => safeM_pure _ _

theorem syncAll_safe (opts : Options) (cwd : Path) (now : String) :
    SafeM (!opts.force) (syncAll opts cwd now) := by
  rw [syncAll]
  refine safeM_getFs_bind fun f0 => ?_
  by_cases hlen : ((detectTools cwd f0).map Prod.fst).length < 2
  · rw [if_pos hlen]
    exact safe_refl _ _
  · rw [if_neg hlen]
    exact runPairs_safe opts cwd now _ f0

theorem initToolsLoop_safe (cwd : Path) (now : String) (installed : List String) :
    SafeM true (initToolsLoop cwd now installed) := by
  induction installed with
  | nil => intro fs; exact safe_refl _ _
  | cons t rest ih =>
      rw [initToolsLoop]
      exact safeM_bind (initTool_safe t cwd now) fun _ => ih

theorem setup_safe (no : Bool) (installed : List String) (opts : Options)
    (cwd : Path) (now : String) : SafeM no (setup installed opts cwd now) := by
  rw [setup]
  by_cases h1 : installed.isEmpty = true
  · rw [if_pos h1]; exact safeM_pure _ _
  · rw [if_neg h1]
    by_cases h2 : opts.dryRun = true
    · rw [if_pos h2]; exact safeM_pure _ _
    · rw [if_neg h2]
      exact fun fs => safe_mono (initToolsLoop_safe cwd now installed fs)

theorem runCommand_safe (c : Command) (opts : Options) (cwd home : Path)
    (now : String) : SafeM (!opts.force) (runCommand c opts cwd home now) := by
  cases c with
  | syncCmd =>
      rw [runCommand]
      exact safeM_bind (syncAll_safe opts cwd now) fun _ => safeM_pure _ _
  | mirrorCmd s t =>
      rw [runCommand]
      exact safeM_bind (mirror_safe s t opts cwd now) fun _ => safeM_pure _ _
  | setupCmd installed =>
      rw [runCommand]
      exact setup_safe _ installed opts cwd now
  | listCmd => rw [runCommand]; exact safeM_pure _ _
  | initCmd t =>
      rw [runCommand]
      exact fun fs => safe_mono (initTool_safe t cwd now fs)
  | globalList =>
      rw [runCommand]
      exact ensureGlobalSkillsDir_safe _ home
  | globalAdd name src =>
      rw [runCommand]
      exact addGlobalSkill_safe name src opts cwd home
  | globalInstall name t =>
      rw [runCommand]
      exact installGlobalSkill_safe _ name t cwd home
  | help => rw [runCommand]; exact safeM_pure _ _

/-- C9: no command of the program ever deletes a filesystem entry.  For every
command invocation and every starting tree, every path that resolves before
the run still resolves after it (whether the run completed or died), and with
`--force` absent the contents of every pre-existing file are unchanged — the
program only creates new entries, and overwrites file contents only when
forced. -/
theorem commands_never_delete (c : Command) (opts : Options) (cwd home : Path)
    (now : String) (fs : FsNode) (p : Path) :
    ((fs.find p).isSome = true →
      ((stateAfter (runCommand c opts cwd home now) fs).find p).isSome = true) ∧
    (opts.force = false → ∀ s, fs.find p = some (.file s) →
      (stateAfter (runCommand c opts cwd home now) fs).find p = some (.file s)) := by
  have hsafe := runCommand_safe c opts cwd home now fs
  refine ⟨fun hq => hsafe.1 p hq, fun hforce s hq => ?_⟩
  exact hsafe.2.2 (by rw [hforce]; rfl) p s hq

/-- Witness for C9: running `init claude` over `dryRunFixture` keeps the
pre-existing skill file intact. -/
theorem commands_never_delete_witness :
    (stateAfter (runCommand (.initCmd "claude") ⟨false, false, false, false, false⟩
        [] ["home"] "T") dryRunFixture).find [".cursor", "skills", "a.md"]
      = some (.file "ca") :=
  (commands_never_delete (.initCmd "claude") ⟨false, false, false, false, false⟩
    [] ["home"] "T" dryRunFixture [".cursor", "skills", "a.md"]).2 rfl "ca" rfl

/-! ## Behaviour of the guarded-create combinators, step by step -/

theorem doMkdirpIfMissing_ok (p : Path) (fs fs' : FsNode) (u : Unit)
    (h : doMkdirpIfMissing p fs = .ok (u, fs')) : existsb fs' p = true := by
  rw [doMkdirpIfMissing_apply] at h
  by_cases hex : existsb fs p = true
  · rw [if_pos hex] at h
    cases h
    exact hex
  · rw [if_neg hex] at h
    rw [doMkdirp_apply] at h
    cases hmk : fs.mkdirp p with
    | none => rw [hmk] at h; cases h
    | some fsm =>
        rw [hmk] at h
        cases h
        have habs : fs.find p = none := by
          simp only [existsb, Bool.not_eq_true] at hex
          exact Option.not_isSome_iff_eq_none.mp (by simp [hex])
        simp [existsb, mkdirp_fresh p fs _ habs hmk]

theorem doMkdirpIfMissing_err (p : Path) (fs : FsNode) (e : Fatal × FsNode)
    (h : doMkdirpIfMissing p fs = .error e) :
    e.2 = fs ∧ existsb fs p = false ∧ fs.mkdirp p = none := by
  rw [doMkdirpIfMissing_apply] at h
  by_cases hex : existsb fs p = true
  · rw [if_pos hex] at h; cases h
  · rw [if_neg hex] at h
    rw [doMkdirp_apply] at h
    cases hmk : fs.mkdirp p with
    | none =>
        rw [hmk] at h
        cases h
        exact ⟨rfl, by simpa using hex, rfl⟩
    | some fsm => rw [hmk] at h; cases h

theorem doMkdirpIfMissing_noop (p : Path) (fs : FsNode)
    (hex : existsb fs p = true) : doMkdirpIfMissing p fs = .ok ((), fs) := by
  rw [doMkdirpIfMissing_apply, if_pos hex]

theorem doMkdirpIfMissing_grows (p : Path) (fs fs' : FsNode) (u : Unit)
    (h : doMkdirpIfMissing p fs = .ok (u, fs')) : Grows fs fs' := by
  have := safeM_doMkdirpIfMissing true p fs
  have heq : stateAfter (doMkdirpIfMissing p) fs = fs' := by
    simp [stateAfter, h]
  rw [heq] at this
  exact this.1

theorem doSetFileIfMissing_ok (p : Path) (c : String) (fs fs' : FsNode) (u : Unit)
    (h : doSetFileIfMissing p c fs = .ok (u, fs')) : existsb fs' p = true := by
  rw [doSetFileIfMissing_apply] at h
  by_cases hex : existsb fs p = true
  · rw [if_pos hex] at h
    cases h
    exact hex
  · rw [if_neg hex] at h
    rw [doSetFile_apply] at h
    cases hsf : fs.setFile p c with
    | none => rw [hsf] at h; cases h
    | some fsm =>
        rw [hsf] at h
        cases h
        rw [existsb, setFile_makes p c fs _ hsf]
        rfl

theorem doSetFileIfMissing_err (p : Path) (c : String) (fs : FsNode)
    (e : Fatal × FsNode) (h : doSetFileIfMissing p c fs = .error e) :
    e.2 = fs ∧ existsb fs p = false ∧ fs.setFile p c = none := by
  rw [doSetFileIfMissing_apply] at h
  by_cases hex : existsb fs p = true
  · rw [if_pos hex] at h; cases h
  · rw [if_neg hex] at h
    rw [doSetFile_apply] at h
    cases hsf : fs.setFile p c with
    | none =>
        rw [hsf] at h
        cases h
        exact ⟨rfl, by simpa using hex, rfl⟩
    | some fsm => rw [hsf] at h; cases h

theorem doSetFileIfMissing_noop (p : Path) (c : String) (fs : FsNode)
    (hex : existsb fs p = true) : doSetFileIfMissing p c fs = .ok ((), fs) := by
  rw [doSetFileIfMissing_apply, if_pos hex]

theorem doSetFileIfMissing_grows (p : Path) (c : String) (fs fs' : FsNode) (u : Unit)
    (h : doSetFileIfMissing p c fs = .ok (u, fs')) : Grows fs fs' := by
  have := safeM_doSetFileIfMissing true p c fs
  have heq : stateAfter (doSetFileIfMissing p c) fs = fs' := by
    simp [stateAfter, h]
  rw [heq] at this
  exact this.1

/-- C10: `initTool` is idempotent and non-destructive.  Every pre-existing
file keeps its contents across an `initTool` run (in particular a
pre-existing config file is never rewritten), and when a run completes, a
second run over its result — the situation of `init` on an
already-initialized tool, or of the implicit auto-init a `mirror` performs —
is a complete no-op: every create is guarded by an existence check that now
succeeds. -/
theorem initTool_idempotent_nondestructive (name : String) (cwd : Path)
    (now1 now2 : String) (fs : FsNode) :
    (∀ (p : Path) (s : String), fs.find p = some (.file s) →
      (stateAfter (initTool name cwd now1) fs).find p = some (.file s)) ∧
    (∀ fs', (initTool name cwd now1) fs = .ok ((), fs') →
      (initTool name cwd now2) fs' = .ok ((), fs')) := by
  constructor
  · intro p s hp
    exact (initTool_safe name cwd now1 fs).2.2 rfl p s hp
  · intro fs' hok
    cases hp : parseTool name with
    | none =>
        simp only [initTool, hp] at hok
        rw [exitWith_apply] at hok
        cases hok
    | some t =>
        simp only [initTool, hp, fsm_bind_eq] at hok ⊢
        rw [fsm_bind_apply] at hok
        cases h1 : doMkdirpIfMissing (cwd ++ [(toolConfig t).dir]) fs with
        | error e => rw [h1] at hok; cases hok
        | ok p1 =>
            obtain ⟨u1, fsA⟩ := p1
            simp only [h1] at hok
            rw [fsm_bind_apply] at hok
            cases h2 : doMkdirpIfMissing
                (cwd ++ [(toolConfig t).dir] ++ [(toolConfig t).skillsDir]) fsA with
            | error e => rw [h2] at hok; cases hok
            | ok p2 =>
                obtain ⟨u2, fsB⟩ := p2
                simp only [h2] at hok
                rw [fsm_bind_apply] at hok
                cases h3 : doMkdirpIfMissing
                    (cwd ++ [(toolConfig t).dir] ++ [(toolConfig t).subagentsDir]) fsB with
                | error e => rw [h3] at hok; cases hok
                | ok p3 =>
                    obtain ⟨u3, fsC⟩ := p3
                    simp only [h3] at hok
                    -- the last step determines fs'
                    have hex1 : existsb fs' (cwd ++ [(toolConfig t).dir]) = true := by
                      have g2 := doMkdirpIfMissing_grows _ _ _ _ h2
                      have g3 := doMkdirpIfMissing_grows _ _ _ _ h3
                      have g4 := doSetFileIfMissing_grows _ _ _ _ _ hok
                      have e1 := doMkdirpIfMissing_ok _ _ _ _ h1
                      exact g4 _ (g3 _ (g2 _ e1))
                    have hex2 : existsb fs'
                        (cwd ++ [(toolConfig t).dir] ++ [(toolConfig t).skillsDir]) = true := by
                      have g3 := doMkdirpIfMissing_grows _ _ _ _ h3
                      have g4 := doSetFileIfMissing_grows _ _ _ _ _ hok
                      have e2 := doMkdirpIfMissing_ok _ _ _ _ h2
                      exact g4 _ (g3 _ e2)
                    have hex3 : existsb fs'
                        (cwd ++ [(toolConfig t).dir] ++ [(toolConfig t).subagentsDir]) = true := by
                      have g4 := doSetFileIfMissing_grows _ _ _ _ _ hok
                      have e3 := doMkdirpIfMissing_ok _ _ _ _ h3
                      exact g4 _ e3
                    have hex4 : existsb fs'
                        (cwd ++ [(toolConfig t).dir] ++ [(toolConfig t).configFile]) = true :=
                      doSetFileIfMissing_ok _ _ _ _ _ hok
                    simp only [fsm_bind_apply, doMkdirpIfMissing_noop _ _ hex1,
                      doMkdirpIfMissing_noop _ _ hex2, doMkdirpIfMissing_noop _ _ hex3,
                      doSetFileIfMissing_noop _ _ _ hex4]

/-- Witness for C10 on a concrete initialized tree. -/
theorem initTool_idempotent_nondestructive_witness :
    (stateAfter (initTool "cursor" [] "T1") dryRunFixture).find
        [".cursor", "skills", "a.md"] = some (.file "ca") ∧
    (initTool "cursor" [] "T2")
        (stateAfter (initTool "cursor" [] "T1") dryRunFixture)
      = .ok ((), stateAfter (initTool "cursor" [] "T1") dryRunFixture) := by
  constructor
  · exact (initTool_idempotent_nondestructive "cursor" [] "T1" "T2"
      dryRunFixture).1 [".cursor", "skills", "a.md"] "ca" rfl
  · exact (initTool_idempotent_nondestructive "cursor" [] "T1" "T2"
      dryRunFixture).2 (stateAfter (initTool "cursor" [] "T1") dryRunFixture) rfl

/-- C2 (amended): a filesystem error raised while copying one `TransferOp` is
not caught anywhere: it aborts the mirror loop at that op — the remaining ops
of the same mirror are never processed and no result is recorded for them —
and it likewise aborts the orchestrator: a pair whose mirror died stops
`runPairs` before any later pair runs. -/
theorem copy_error_aborts_remaining_ops :
    (∀ (opts : Options) (op : TransferOp) (rest : List TransferOp) (fs : FsNode)
        (e : Fatal × FsNode), runOps opts [op] fs = .error e →
        runOps opts (op :: rest) fs = .error e) ∧
    (∀ (opts : Options) (cwd : Path) (now : String) (a b : Tool)
        (rest : List (Tool × Tool)) (fs : FsNode) (e : Fatal × FsNode),
        mirror (toolName a) (toolName b) opts cwd now fs = .error e →
        runPairs opts cwd now ((a, b) :: rest) fs = .error e) := by
  constructor
  · intro opts op rest fs e h
    rw [runOps] at h ⊢
    simp only [fsm_bind_eq, fsm_bind_apply, getFs_apply] at h ⊢
    by_cases hdry : opts.dryRun = true
    · rw [if_pos hdry] at h
      simp [runOps, fsm_pure_eq, FsM.bind, FsM.pure] at h
    · rw [if_neg hdry] at h ⊢
      by_cases hskip : (existsb fs op.tgt && !opts.force) = true
      · rw [if_pos hskip] at h
        simp [runOps, fsm_pure_eq, FsM.bind, FsM.pure] at h
      · rw [if_neg hskip] at h ⊢
        cases hsrc : fs.find op.src with
        | none => simpa [hsrc] using h
        | some n =>
            cases n with
            | dir cs =>
                simp only [hsrc] at h ⊢
                rw [fsm_bind_apply] at h ⊢
                cases hc : doCopyDirectory op.src op.tgt opts.force fs with
                | ok p =>
                    obtain ⟨a, fs1⟩ := p
                    rw [hc] at h
                    simp [runOps, fsm_pure_eq, FsM.bind, FsM.pure] at h
                | error e' =>
                    rw [hc] at h
                    simpa using h
            | file c =>
                simp only [hsrc] at h ⊢
                rw [fsm_bind_apply] at h ⊢
                cases hm : doMkdirpIfMissing op.tgt.dropLast fs with
                | ok p =>
                    obtain ⟨a, fs1⟩ := p
                    rw [hm] at h
                    simp only [fsm_bind_apply] at h ⊢
                    cases hsf : doSetFile op.tgt c fs1 with
                    | ok q =>
                        obtain ⟨b, fs2⟩ := q
                        rw [hsf] at h
                        simp [runOps, fsm_pure_eq, FsM.bind, FsM.pure] at h
                    | error e' =>
                        rw [hsf] at h
                        simpa using h
                | error e' =>
                    rw [hm] at h
                    simpa using h
  · intro opts cwd now a b rest fs e h
    rw [runPairs]
    simp only [fsm_bind_eq, fsm_bind_apply, h]

/-- Witness for C2 (amended): the EISDIR failure on `crashFixture`'s first op
aborts before the `b.md` op. -/
theorem copy_error_aborts_remaining_ops_witness :
    runOps ⟨false, false, false, true, false⟩
      (crashOp ::
        [{ src := [".cursor", "skills", "b.md"], tgt := [".claude", "skills", "b.md"],
           category := .skill, name := "b.md" }]) crashFixture
      = .error (.fsError, crashFixture) :=
  copy_error_aborts_remaining_ops.1 ⟨false, false, false, true, false⟩ crashOp
    [{ src := [".cursor", "skills", "b.md"], tgt := [".claude", "skills", "b.md"],
       category := .skill, name := "b.md" }] crashFixture (.fsError, crashFixture) rfl

theorem parseTool_toolName (t : Tool) : parseTool (toolName t) = some t := by
  cases t <;> rfl

theorem existsb_parent (fs : FsNode) (p : Path) (x : String)
    (h : existsb fs (p ++ [x]) = true) : existsb fs p = true := by
  simp only [existsb] at h ⊢
  rw [find_append] at h
  cases hp : fs.find p with
  | none => rw [hp] at h; simp at h
  | some n => rfl

/-- C7 (amended): `mirror` and `init` terminate with exit status 1 on an
unregistered tool id (source or target), but `global install` with an
explicit unregistered tool id does not: the per-tool loop merely skips the
unknown id (it is never in the detected set) and the command completes
normally with the filesystem untouched, provided the named global skill
exists. -/
theorem unknown_tool_exit_behavior :
    (∀ (s t : String) (opts : Options) (cwd : Path) (now : String) (fs : FsNode),
        parseTool s = none →
        mirror s t opts cwd now fs = .error (.exited 1, fs)) ∧
    (∀ (s t : String) (opts : Options) (cwd : Path) (now : String) (fs : FsNode),
        parseTool t = none →
        mirror s t opts cwd now fs = .error (.exited 1, fs)) ∧
    (∀ (name : String) (cwd : Path) (now : String) (fs : FsNode),
        parseTool name = none →
        initTool name cwd now fs = .error (.exited 1, fs)) ∧
    (∀ (tool skillName : String) (cwd home : Path) (fs : FsNode),
        parseTool tool = none →
        existsb fs (globalDir home ++ [skillName]) = true →
        installGlobalSkill skillName (some tool) cwd home fs = .ok ((), fs)) := by
  refine ⟨?_, ?_, ?_, ?_⟩
  · intro s t opts cwd now fs hs
    rw [mirror]
    simp only [hs]
    rfl
  · intro s t opts cwd now fs ht
    rw [mirror]
    cases hs : parseTool s with
    | none => rfl
    | some ts => simp only [ht]; rfl
  · intro name cwd now fs hn
    rw [initTool]
    simp only [hn]
    rfl
  · intro tool skillName cwd home fs ht hsk
    have hgd : existsb fs (globalDir home) = true := existsb_parent fs _ _ hsk
    rw [installGlobalSkill]
    simp only [ensureGlobalSkillsDir, fsm_bind_eq, fsm_bind_apply,
      doMkdirpIfMissing_noop _ _ hgd, getFs_apply]
    rw [if_neg (by simp [hsk])]
    have hfind : ((detectTools cwd fs).find? fun p => toolName p.1 = tool) = none := by
      cases hf : (detectTools cwd fs).find? fun p => toolName p.1 = tool with
      | none => rfl
      | some pr =>
          have := List.find?_some hf
          simp only [decide_eq_true_eq] at this
          rw [← this, parseTool_toolName] at ht
          cases ht
    rw [if_neg (by simp)]
    rw [installLoop]
    simp only [hfind, Option.map_none]
    rw [installLoop]
    rfl

/-- Witness for C7 (amended) at concrete inputs. -/
theorem unknown_tool_exit_behavior_witness :
    mirror "nosuchtool" "claude" ⟨false, false, false, false, false⟩ [] "T" registryFixture
      = .error (.exited 1, registryFixture) ∧
    mirror "cursor" "nosuchtool" ⟨false, false, false, false, false⟩ [] "T" registryFixture
      = .error (.exited 1, registryFixture) ∧
    initTool "nosuchtool" [] "T" registryFixture = .error (.exited 1, registryFixture) ∧
    installGlobalSkill "x" (some "nosuchtool") [] ["home"] registryFixture
      = .ok ((), registryFixture) :=
  ⟨unknown_tool_exit_behavior.1 "nosuchtool" "claude" ⟨false, false, false, false, false⟩
      [] "T" registryFixture rfl,
   unknown_tool_exit_behavior.2.1 "cursor" "nosuchtool" ⟨false, false, false, false, false⟩
      [] "T" registryFixture rfl,
   unknown_tool_exit_behavior.2.2.1 "nosuchtool" [] "T" registryFixture rfl,
   unknown_tool_exit_behavior.2.2.2 "nosuchtool" "x" [] ["home"] registryFixture rfl rfl⟩

/-! ## Lemmas about well-formed (duplicate-free) trees -/

theorem niceAll_lookup (cs : List (String × FsNode)) (x : String) (m : FsNode)
    (hall : niceAll cs = true) (hl : lookupChild cs x = some m) : m.nice = true := by
  induction cs with
  | nil => simp [lookupChild] at hl
  | cons hd tl ih =>
      obtain ⟨a, n⟩ := hd
      by_cases hax : a = x
      · subst hax
        have hnm : n = m := by simpa [lookupChild] using hl
        subst hnm
        cases n with
        | file c => rfl
        | dir cs' =>
            simp only [niceAll, Bool.and_eq_true] at hall
            simp [FsNode.nice, hall.1.1, hall.1.2]
      · simp only [lookupChild, hax, if_false] at hl
        cases n with
        | file c =>
            simp only [niceAll] at hall
            exact ih hall hl
        | dir cs' =>
            simp only [niceAll, Bool.and_eq_true] at hall
            exact ih hall.2 hl

theorem nice_find (n : FsNode) (p : Path) (m : FsNode) (hn : n.nice = true)
    (h : n.find p = some m) : m.nice = true := by
  induction p generalizing n with
  | nil =>
      simp only [FsNode.find, Option.some.injEq] at h
      subst h; exact hn
  | cons x xs ih =>
      cases n with
      | file c => simp [FsNode.find] at h
      | dir cs =>
          simp only [FsNode.find] at h
          cases hl : lookupChild cs x with
          | none => simp [hl] at h
          | some c =>
              rw [hl] at h
              simp only [FsNode.nice, Bool.and_eq_true] at hn
              exact ih c (niceAll_lookup cs x c hn.2 hl) h

/-! ## Frame lemmas for the recursive copier -/

theorem copyEntries_frame (cs : List (String × FsNode)) (tgt : Path)
    (force : Bool) (fs : FsNode) (q : Path) (hq : divergeb tgt q = true) :
    ((copyEntries cs tgt force fs).1).find q = fs.find q := by
  induction cs, tgt, force, fs using copyEntries.induct with
  | case1 tgt force fs => rfl
  | case2 name cs rest tgt force fs hmk =>
      rw [copyEntries]
      simp only [hmk]
  | case3 name cs rest tgt force fs c hmk fs2 hin ih1 ih2 =>
      rw [copyEntries]
      simp only [hmk, hin]
      rw [ih2 hq]
      have h1 : fs2 = (copyEntries cs (tgt ++ [name]) force c).1 := by rw [hin]
      rw [h1, ih1 (divergeb_extend tgt q [name] hq)]
      exact mkdirp_frame _ _ (divergeb_extend tgt q [name] hq) _ _ hmk
  | case4 name cs rest tgt force fs c hmk hfalse ih =>
      rw [copyEntries]
      simp only [hmk]
      cases hin : copyEntries cs (tgt ++ [name]) force c with
      | mk fs2 ok =>
          cases ok with
          | true => exact absurd hin (fun hh => hfalse fs2 hh)
          | false =>
              simp only
              have h1 : fs2 = (copyEntries cs (tgt ++ [name]) force c).1 := by rw [hin]
              rw [h1, ih (divergeb_extend tgt q [name] hq)]
              exact mkdirp_frame _ _ (divergeb_extend tgt q [name] hq) _ _ hmk
  | case5 name c rest tgt force fs hguard hsf =>
      rw [copyEntries]
      simp only [hguard, if_true, hsf]
  | case6 name c rest tgt force fs hguard c1 hsf ih =>
      rw [copyEntries]
      simp only [hguard, if_true, hsf]
      rw [ih hq]
      exact setFile_frame _ _ (divergeb_extend tgt q [name] hq) _ _ _ hsf
  | case7 name c rest tgt force fs hguard ih =>
      rw [copyEntries]
      simp only [hguard, if_false]
      exact ih hq

theorem nodupKeys_head (a : String) (n : FsNode) (rest : List (String × FsNode))
    (h : nodupKeys ((a, n) :: rest) = true) :
    ∀ pr ∈ rest, pr.1 ≠ a := by
  intro pr hmem heq
  simp only [nodupKeys, Bool.and_eq_true, Bool.not_eq_true'] at h
  have : rest.any (fun p => p.1 = a) = true := by
    refine List.any_eq_true.mpr ⟨pr, hmem, ?_⟩
    simp [heq]
  rw [this] at h
  cases h.1

theorem nodupKeys_tail (a : String) (n : FsNode) (rest : List (String × FsNode))
    (h : nodupKeys ((a, n) :: rest) = true) : nodupKeys rest = true := by
  simp only [nodupKeys, Bool.and_eq_true] at h
  exact h.2

theorem lookup_of_find_dir (fs : FsNode) (tgt : Path) (ds : List (String × FsNode))
    (x : String) (hdir : fs.find tgt = some (.dir ds)) :
    fs.find (tgt ++ [x]) = lookupChild ds x := by
  rw [find_append, hdir]
  simp [FsNode.find]
  cases lookupChild ds x <;> rfl

theorem copyEntries_total (cs : List (String × FsNode)) (tgt : Path)
    (force : Bool) (fs : FsNode) (hforce : force = false)
    (hnodup : nodupKeys cs = true) (hall : niceAll cs = true)
    (hdir : ∃ ds, fs.find tgt = some (.dir ds))
    (habsent : ∀ pr ∈ cs, fs.find (tgt ++ [pr.1]) = none) :
    (copyEntries cs tgt force fs).2 = true := by
  induction cs, tgt, force, fs using copyEntries.induct with
  | case1 tgt force fs => rfl
  | case2 name cs rest tgt force fs hmk =>
      obtain ⟨ds, hds⟩ := hdir
      have hl : lookupChild ds name = none := by
        have := habsent (name, .dir cs) (by simp)
        rwa [lookup_of_find_dir fs tgt ds name hds] at this
      obtain ⟨n', hn'⟩ := mkdirp_total_under tgt name fs ds hds hl
      rw [hn'] at hmk
      cases hmk
  | case3 name cs rest tgt force fs c hmk fs2 hin ih1 ih2 =>
      rw [copyEntries]
      simp only [hmk, hin]
      have hne : ∀ pr ∈ rest, pr.1 ≠ name := nodupKeys_head name _ rest hnodup
      refine ih2 hforce (nodupKeys_tail _ _ _ hnodup) ?_ ?_ ?_
      · simp only [niceAll, Bool.and_eq_true] at hall
        exact hall.2
      · have hkd1 := mkdirp_keepsDir _ _ _ hmk
        have hkd2 : KeepsDirs c fs2 := by
          have := (copyEntries_safe cs (tgt ++ [name]) force c).2.1
          rwa [hin] at this
        obtain ⟨ds, hds⟩ := hdir
        obtain ⟨ds1, hds1⟩ := hkd1 tgt ds hds
        obtain ⟨ds2, hds2⟩ := hkd2 tgt ds1 hds1
        exact ⟨ds2, hds2⟩
      · intro pr hmem
        have hdv : divergeb (tgt ++ [name]) (tgt ++ [pr.1]) = true :=
          divergeb_append_left tgt name pr.1 [] [] (fun hh => hne pr hmem hh.symm)
        have hfr2 : fs2.find (tgt ++ [pr.1]) = c.find (tgt ++ [pr.1]) := by
          have := copyEntries_frame cs (tgt ++ [name]) force c (tgt ++ [pr.1]) hdv
          rwa [hin] at this
        rw [hfr2, mkdirp_frame _ _ hdv _ _ hmk]
        exact habsent pr (by simp [hmem])
  | case4 name cs rest tgt force fs c hmk hfalse ih =>
      obtain ⟨ds, hds⟩ := hdir
      have habs0 : fs.find (tgt ++ [name]) = none := habsent (name, .dir cs) (by simp)
      have hfresh : c.find (tgt ++ [name]) = some (.dir []) :=
        mkdirp_fresh _ _ _ habs0 hmk
      have hok : (copyEntries cs (tgt ++ [name]) force c).2 = true := by
        refine ih hforce ?_ ?_ ⟨[], hfresh⟩ ?_
        · simp only [niceAll, Bool.and_eq_true] at hall
          exact hall.1.1
        · simp only [niceAll, Bool.and_eq_true] at hall
          exact hall.1.2
        · intro pr hmem
          rw [lookup_of_find_dir c (tgt ++ [name]) [] pr.1 hfresh]
          rfl
      cases hres : copyEntries cs (tgt ++ [name]) force c with
      | mk fs2 ok =>
          rw [hres] at hok
          simp only at hok
          subst hok
          exact absurd hres (fun hh => hfalse fs2 hh)
  | case5 name c rest tgt force fs hguard hsf =>
      obtain ⟨ds, hds⟩ := hdir
      have hl : lookupChild ds name = none := by
        have := habsent (name, .file c) (by simp)
        rwa [lookup_of_find_dir fs tgt ds name hds] at this
      obtain ⟨n', hn'⟩ := setFile_total tgt name c fs ds hds hl
      rw [hn'] at hsf
      cases hsf
  | case6 name c rest tgt force fs hguard c1 hsf ih =>
      rw [copyEntries]
      simp only [hguard, if_true, hsf]
      have hne : ∀ pr ∈ rest, pr.1 ≠ name := nodupKeys_head name _ rest hnodup
      refine ih hforce (nodupKeys_tail _ _ _ hnodup) ?_ ?_ ?_
      · simp only [niceAll] at hall
        exact hall
      · obtain ⟨ds, hds⟩ := hdir
        exact setFile_keepsDir _ _ _ _ hsf tgt ds hds
      · intro pr hmem
        have hdv : divergeb (tgt ++ [name]) (tgt ++ [pr.1]) = true :=
          divergeb_append_left tgt name pr.1 [] [] (fun hh => hne pr hmem hh.symm)
        rw [setFile_frame _ _ hdv _ _ _ hsf]
        exact habsent pr (by simp [hmem])
  | case7 name c rest tgt force fs hguard ih =>
      subst hforce
      have habs0 : fs.find (tgt ++ [name]) = none := habsent (name, .file c) (by simp)
      simp [existsb, habs0] at hguard

theorem copyDirectory_frame (fs : FsNode) (src tgt : Path) (force : Bool)
    (q : Path) (hq : divergeb tgt q = true) :
    ((copyDirectory fs src tgt force).1).find q = fs.find q := by
  rw [copyDirectory]
  cases hsrc : fs.find src with
  | none => rfl
  | some n =>
      cases n with
      | file c => rfl
      | dir cs =>
          cases hm : fs.mkdirp tgt with
          | none => rfl
          | some fs1 =>
              simp only
              rw [copyEntries_frame cs tgt force fs1 q hq]
              exact mkdirp_frame _ _ hq _ _ hm

theorem runOps_frame (opts : Options) (base : Path) (ops : List TransferOp)
    (hshape : ∀ op ∈ ops, ∃ sub nm, op.tgt = base ++ [sub, nm]) (fs : FsNode)
    (q : Path) (hq : divergeb base q = true) :
    (stateAfter (runOps opts ops) fs).find q = fs.find q := by
  induction ops generalizing fs with
  | nil => rfl
  | cons op rest ih =>
      obtain ⟨sub, nm, htgt⟩ := hshape op (by simp)
      have hrest : ∀ op' ∈ rest, ∃ sub nm, op'.tgt = base ++ [sub, nm] :=
        fun op' hm => hshape op' (by simp [hm])
      have hqtgt : divergeb op.tgt q = true := by
        rw [htgt]
        exact divergeb_extend base q [sub, nm] hq
      have hqpar : divergeb op.tgt.dropLast q = true := by
        have : op.tgt.dropLast = base ++ [sub] := by
          rw [htgt, show base ++ [sub, nm] = (base ++ [sub]) ++ [nm] by simp]
          exact List.dropLast_concat
        rw [this]
        exact divergeb_extend base q [sub] hq
      rw [runOps]
      simp only [fsm_bind_eq, fsm_pure_eq]
      rw [stateAfter_bind]
      simp only [getFs_apply]
      by_cases hdry : opts.dryRun = true
      · rw [if_pos hdry, stateAfter_bind_pure]
        exact ih hrest fs
      · rw [if_neg hdry]
        by_cases hskip : (existsb fs op.tgt && !opts.force) = true
        · rw [if_pos hskip, stateAfter_bind_pure]
          exact ih hrest fs
        · rw [if_neg hskip]
          cases hsrc : fs.find op.src with
          | none => simp only [stateAfter, fsCrash_apply]
          | some n =>
              cases n with
              | dir cs =>
                  simp only
                  rw [stateAfter_bind]
                  simp only [doCopyDirectory_apply]
                  cases hc : copyDirectory fs op.src op.tgt opts.force with
                  | mk fs1 ok =>
                      have hfr : fs1.find q = fs.find q := by
                        have := copyDirectory_frame fs op.src op.tgt opts.force q hqtgt
                        rwa [hc] at this
                      cases ok with
                      | true =>
                          simp only
                          rw [stateAfter_bind_pure, ih hrest fs1, hfr]
                      | false => simpa using hfr
              | file c =>
                  simp only
                  rw [stateAfter_bind]
                  simp only [doMkdirpIfMissing_apply]
                  by_cases hpar : existsb fs op.tgt.dropLast = true
                  · rw [if_pos hpar]
                    simp only
                    rw [stateAfter_bind]
                    simp only [doSetFile_apply]
                    cases hsf : fs.setFile op.tgt c with
                    | none => rfl
                    | some fs2 =>
                        simp only
                        rw [stateAfter_bind_pure, ih hrest fs2]
                        exact setFile_frame _ _ hqtgt _ _ _ hsf
                  · rw [if_neg hpar]
                    simp only [doMkdirp_apply]
                    cases hmk : fs.mkdirp op.tgt.dropLast with
                    | none => rfl
                    | some fs1 =>
                        simp only
                        rw [stateAfter_bind]
                        simp only [doSetFile_apply]
                        have hfr1 : fs1.find q = fs.find q :=
                          mkdirp_frame _ _ hqpar _ _ hmk
                        cases hsf : fs1.setFile op.tgt c with
                        | none => simpa using hfr1
                        | some fs2 =>
                            simp only
                            rw [stateAfter_bind_pure, ih hrest fs2,
                              setFile_frame _ _ hqtgt _ _ _ hsf]
                            exact hfr1

theorem runOps_all_exists (opts : Options) (hd : opts.dryRun = false)
    (hf : opts.force = false) (ops : List TransferOp) (fs : FsNode)
    (hex : ∀ op ∈ ops, existsb fs op.tgt = true) :
    runOps opts ops fs
      = .ok (ops.map fun op => ⟨op.category, op.name, .skippedExists⟩, fs) := by
  induction ops with
  | nil => rfl
  | cons op rest ih =>
      rw [runOps]
      simp only [fsm_bind_eq, fsm_pure_eq, fsm_bind_apply, getFs_apply]
      rw [if_neg (by simp [hd]), if_pos (by simp [hex op (by simp), hf])]
      rw [fsm_bind_apply, ih (fun op' hm => hex op' (by simp [hm]))]
      rfl

/-! ## Scanner and detection lemmas -/

theorem scanEntries_exists (fs : FsNode) (p : Path) (nm : String)
    (h : nm ∈ scanEntries fs p) : (fs.find (p ++ [nm])).isSome = true := by
  simp only [scanEntries, List.mem_filter] at h
  cases hfind : fs.find (p ++ [nm]) with
  | none => rw [hfind] at h; simp at h
  | some n => rfl

theorem scanEntries_congr (fs1 fs2 : FsNode) (root : Path) (r : Path)
    (h : fs1.find root = fs2.find root) :
    scanEntries fs1 (root ++ r) = scanEntries fs2 (root ++ r) := by
  have hfind : ∀ q, fs1.find (root ++ q) = fs2.find (root ++ q) := by
    intro q
    rw [find_append, find_append, h]
  have hitem : ∀ item, fs1.find ((root ++ r) ++ [item]) = fs2.find ((root ++ r) ++ [item]) := by
    intro item
    rw [show (root ++ r) ++ [item] = root ++ (r ++ [item]) by simp]
    exact hfind (r ++ [item])
  simp only [scanEntries, FsNode.readdir, hfind r]
  cases fs2.find (root ++ r) with
  | none => rfl
  | some n =>
      cases n with
      | file c => rfl
      | dir cs =>
          simp only
          apply List.filter_congr
          intro item hmem
          rw [hitem item]

theorem detLookup_cons (u : Tool) (du : Detected) (rest : List (Tool × Detected)) (t : Tool) :
    detLookup ((u, du) :: rest) t = if u = t then some du else detLookup rest t := by
  by_cases h : u = t
  · subst h
    simp [detLookup, List.find?_cons]
  · simp [detLookup, List.find?_cons, h]

/-- The characterization of `detected[t]`: present iff the tool root exists,
and then carrying the scanned entry lists. -/
theorem detLookup_detectTools (cwd : Path) (fs : FsNode) (t : Tool) :
    detLookup (detectTools cwd fs) t =
      (if existsb fs (cwd ++ [(toolConfig t).dir]) = true then
        some ⟨cwd ++ [(toolConfig t).dir],
              scanEntries fs (cwd ++ [(toolConfig t).dir] ++ [(toolConfig t).skillsDir]),
              scanEntries fs (cwd ++ [(toolConfig t).dir] ++ [(toolConfig t).subagentsDir])⟩
      else none) := by
  have aux : ∀ ts : List Tool,
      detLookup (ts.filterMap fun u =>
        if existsb fs (cwd ++ [(toolConfig u).dir]) then
          some (u, { path := cwd ++ [(toolConfig u).dir]
                     skills := scanEntries fs
                       (cwd ++ [(toolConfig u).dir] ++ [(toolConfig u).skillsDir])
                     subagents := scanEntries fs
                       (cwd ++ [(toolConfig u).dir] ++ [(toolConfig u).subagentsDir]) })
        else none) t =
      (if t ∈ ts ∧ existsb fs (cwd ++ [(toolConfig t).dir]) = true then
        some ⟨cwd ++ [(toolConfig t).dir],
              scanEntries fs (cwd ++ [(toolConfig t).dir] ++ [(toolConfig t).skillsDir]),
              scanEntries fs (cwd ++ [(toolConfig t).dir] ++ [(toolConfig t).subagentsDir])⟩
      else none) := by
    intro ts
    induction ts with
    | nil => simp [detLookup]
    | cons u us ih =>
        by_cases hu : existsb fs (cwd ++ [(toolConfig u).dir]) = true
        · simp only [List.filterMap_cons, hu, if_true]
          rw [detLookup_cons]
          by_cases hut : u = t
          · subst hut
            rw [if_pos rfl, if_pos ⟨by simp, hu⟩]
          · rw [if_neg hut, ih]
            by_cases hcond : t ∈ us ∧ existsb fs (cwd ++ [(toolConfig t).dir]) = true
            · rw [if_pos hcond, if_pos ⟨List.mem_cons_of_mem u hcond.1, hcond.2⟩]
            · rw [if_neg hcond, if_neg]
              rintro ⟨hm, hc⟩
              cases List.mem_cons.mp hm with
              | inl hh => exact hut hh.symm
              | inr hh => exact hcond ⟨hh, hc⟩
        · simp only [List.filterMap_cons, hu, Bool.false_eq_true, if_false]
          rw [ih]
          by_cases hcond : t ∈ us ∧ existsb fs (cwd ++ [(toolConfig t).dir]) = true
          · rw [if_pos hcond, if_pos ⟨List.mem_cons_of_mem u hcond.1, hcond.2⟩]
          · rw [if_neg hcond, if_neg]
            rintro ⟨hm, hc⟩
            cases List.mem_cons.mp hm with
            | inl hh =>
                subst hh
                exact hu hc
            | inr hh => exact hcond ⟨hh, hc⟩
  have hmem : t ∈ toolList := by cases t <;> simp [toolList]
  rw [show detectTools cwd fs = toolList.filterMap (fun u =>
        if existsb fs (cwd ++ [(toolConfig u).dir]) then
          some (u, { path := cwd ++ [(toolConfig u).dir]
                     skills := scanEntries fs
                       (cwd ++ [(toolConfig u).dir] ++ [(toolConfig u).skillsDir])
                     subagents := scanEntries fs
                       (cwd ++ [(toolConfig u).dir] ++ [(toolConfig u).subagentsDir]) })
        else none) from rfl, aux toolList]
  by_cases hc : existsb fs (cwd ++ [(toolConfig t).dir]) = true
  · rw [if_pos ⟨hmem, hc⟩, if_pos hc]
  · rw [if_neg (fun hh => hc hh.2), if_neg hc]

theorem toolConfig_dir_inj (s t : Tool) (h : s ≠ t) :
    (toolConfig s).dir ≠ (toolConfig t).dir := by
  cases s <;> cases t <;> first | exact absurd rfl h | decide

theorem toolConfig_subdirs (t : Tool) :
    (toolConfig t).skillsDir ≠ (toolConfig t).subagentsDir ∧
      (toolConfig t).configFile ≠ (toolConfig t).skillsDir ∧
      (toolConfig t).configFile ≠ (toolConfig t).subagentsDir := by
  cases t <;> exact ⟨by decide, by decide, by decide⟩

theorem find_eq_none_of_not_existsb (fs : FsNode) (p : Path)
    (h : existsb fs p = false) : fs.find p = none := by
  simp only [existsb] at h
  cases hf : fs.find p with
  | none => rfl
  | some n => rw [hf] at h; cases h

theorem initTool_fresh (name : String) (t : Tool) (hpn : parseTool name = some t)
    (cwd : Path) (now : String) (fs : FsNode)
    (habs : existsb fs (cwd ++ [(toolConfig t).dir]) = false) :
    initTool name cwd now fs = .error (.fsError, fs) ∨
    (∃ fsI, initTool name cwd now fs = .ok ((), fsI) ∧
      existsb fsI (cwd ++ [(toolConfig t).dir]) = true ∧
      (∀ q, divergeb (cwd ++ [(toolConfig t).dir]) q = true → fsI.find q = fs.find q)) := by
  have hsub := toolConfig_subdirs t
  rw [initTool]
  simp only [hpn, fsm_bind_eq]
  rw [fsm_bind_apply, doMkdirpIfMissing_apply, if_neg (by simp [habs]), doMkdirp_apply]
  cases hmk : fs.mkdirp (cwd ++ [(toolConfig t).dir]) with
  | none => left; rfl
  | some fsA =>
      have hfresh : fsA.find (cwd ++ [(toolConfig t).dir]) = some (.dir []) :=
        mkdirp_fresh _ _ _ (find_eq_none_of_not_existsb fs _ habs) hmk
      -- step 2: skills subdirectory
      have habs2 : fsA.find (cwd ++ [(toolConfig t).dir] ++ [(toolConfig t).skillsDir]) = none := by
        rw [lookup_of_find_dir fsA _ [] _ hfresh]; rfl
      obtain ⟨fsB, hmk2⟩ := mkdirp_total_under (cwd ++ [(toolConfig t).dir])
        (toolConfig t).skillsDir fsA [] hfresh rfl
      -- step 3: subagents subdirectory
      obtain ⟨dsB, hdirB⟩ := mkdirp_keepsDir _ _ _ hmk2 (cwd ++ [(toolConfig t).dir]) [] hfresh
      have habs3 : fsB.find (cwd ++ [(toolConfig t).dir] ++ [(toolConfig t).subagentsDir]) = none := by
        rw [mkdirp_frame _ _ (divergeb_append_left (cwd ++ [(toolConfig t).dir]) _ _ [] []
              hsub.1) _ _ hmk2]
        rw [lookup_of_find_dir fsA _ [] _ hfresh]; rfl
      have hlB : lookupChild dsB (toolConfig t).subagentsDir = none := by
        rw [← lookup_of_find_dir fsB _ dsB _ hdirB]; exact habs3
      obtain ⟨fsC, hmk3⟩ := mkdirp_total_under (cwd ++ [(toolConfig t).dir])
        (toolConfig t).subagentsDir fsB dsB hdirB hlB
      -- step 4: config file
      obtain ⟨dsC, hdirC⟩ := mkdirp_keepsDir _ _ _ hmk3 (cwd ++ [(toolConfig t).dir]) dsB hdirB
      have habs4 : fsC.find (cwd ++ [(toolConfig t).dir] ++ [(toolConfig t).configFile]) = none := by
        rw [mkdirp_frame _ _ (divergeb_append_left (cwd ++ [(toolConfig t).dir]) _ _ [] []
              (fun hh => hsub.2.2 hh.symm)) _ _ hmk3]
        rw [mkdirp_frame _ _ (divergeb_append_left (cwd ++ [(toolConfig t).dir]) _ _ [] []
              (fun hh => hsub.2.1 hh.symm)) _ _ hmk2]
        rw [lookup_of_find_dir fsA _ [] _ hfresh]; rfl
      have hlC : lookupChild dsC (toolConfig t).configFile = none := by
        rw [← lookup_of_find_dir fsC _ dsC _ hdirC]; exact habs4
      obtain ⟨fsD, hsf4⟩ := setFile_total (cwd ++ [(toolConfig t).dir])
        (toolConfig t).configFile (defaultConfig (toolName t) now) fsC dsC hdirC hlC
      have habs2' : fsA.find (cwd ++ [(toolConfig t).dir, (toolConfig t).skillsDir]) = none := by
        simpa using habs2
      have habs3' : fsB.find (cwd ++ [(toolConfig t).dir, (toolConfig t).subagentsDir]) = none := by
        simpa using habs3
      have habs4' : fsC.find (cwd ++ [(toolConfig t).dir, (toolConfig t).configFile]) = none := by
        simpa using habs4
      right
      refine ⟨fsD, ?_, ?_, ?_⟩
      · simp only [fsm_bind_apply, doMkdirpIfMissing_apply, doMkdirp_apply,
          doSetFileIfMissing_apply, doSetFile_apply, existsb, habs2, habs3, habs4,
          hmk2, hmk3, hsf4, Option.isSome_none, Bool.false_eq_true, if_false]
      · have g2 := mkdirp_keepsNode _ _ _ hmk2
        have g3 := mkdirp_keepsNode _ _ _ hmk3
        have g4 := setFile_keepsNode _ _ _ _ hsf4
        simp only [existsb]
        apply g4; apply g3; apply g2
        simp [hfresh]
      · intro q hq
        rw [setFile_frame _ _ (divergeb_extend _ _ [(toolConfig t).configFile] hq) _ _ _ hsf4]
        rw [mkdirp_frame _ _ (divergeb_extend _ _ [(toolConfig t).subagentsDir] hq) _ _ hmk3]
        rw [mkdirp_frame _ _ (divergeb_extend _ _ [(toolConfig t).skillsDir] hq) _ _ hmk2]
        exact mkdirp_frame _ _ hq _ _ hmk

/-! ## Replay lemmas: what a second no-force mirror run sees -/

theorem fsm_pure_apply {α : Type} (a : α) (fs : FsNode) :
    FsM.pure a fs = .ok (a, fs) := rfl

theorem fsm_bind_getFs {α : Type} (k : FsNode → FsM α) (fs : FsNode) :
    FsM.bind getFs k fs = k fs fs := rfl

theorem fsm_bind_pureL {α β : Type} (a : α) (k : α → FsM β) (fs : FsNode) :
    FsM.bind (FsM.pure a) k fs = k a fs := rfl

theorem existsb_congr {a b : FsNode} {p : Path} (h : a.find p = b.find p) :
    existsb a p = existsb b p := by
  simp [existsb, h]

theorem grows_existsb {a b : FsNode} (h : Grows a b) (p : Path)
    (hp : existsb a p = true) : existsb b p = true := by
  simp only [existsb] at hp ⊢
  exact h p hp

theorem isEmpty_eq_nil {α : Type} (l : List α) (h : l.isEmpty = true) : l = [] := by
  cases l with
  | nil => rfl
  | cons a as => simp [List.isEmpty] at h

theorem mkdirp_makes (p : Path) (n n' : FsNode) (h : n.mkdirp p = some n') :
    ∃ ds, n'.find p = some (.dir ds) := by
  induction p generalizing n n' with
  | nil =>
      cases n with
      | file c => simp [FsNode.mkdirp] at h
      | dir cs =>
          simp only [FsNode.mkdirp, Option.some.injEq] at h
          subst h
          exact ⟨cs, rfl⟩
  | cons x xs ih =>
      cases n with
      | file c => simp [FsNode.mkdirp] at h
      | dir cs =>
          simp only [FsNode.mkdirp] at h
          cases hl : lookupChild cs x with
          | none =>
              simp only [hl] at h
              cases hm : FsNode.mkdirp (.dir []) xs with
              | none => simp only [hm] at h; cases h
              | some c1 =>
                  simp only [hm, Option.some.injEq] at h
                  subst h
                  obtain ⟨ds, hds⟩ := ih _ _ hm
                  exact ⟨ds, by simp [FsNode.find, lookupChild_setChild_self, hds]⟩
          | some c =>
              simp only [hl] at h
              cases hm : FsNode.mkdirp c xs with
              | none => simp only [hm] at h; cases h
              | some c1 =>
                  simp only [hm, Option.some.injEq] at h
                  subst h
                  obtain ⟨ds, hds⟩ := ih _ _ hm
                  exact ⟨ds, by simp [FsNode.find, lookupChild_setChild_self, hds]⟩

theorem runOps_ok_grows (opts : Options) (ops : List TransferOp) (fs : FsNode)
    (rs : List OpResult) (fs1 : FsNode)
    (h : runOps opts ops fs = .ok (rs, fs1)) : Grows fs fs1 := by
  have hs := runOps_safe opts ops fs
  have he : stateAfter (runOps opts ops) fs = fs1 := by
    simp [stateAfter, h]
  rw [he] at hs
  exact hs.1

theorem copyDirectory_ok_tgt_exists (fs : FsNode) (src tgt : Path) (force : Bool)
    (fs1 : FsNode) (h : copyDirectory fs src tgt force = (fs1, true)) :
    existsb fs1 tgt = true := by
  rw [copyDirectory] at h
  cases hsrc : fs.find src with
  | none => simp only [hsrc] at h; simp at h
  | some n =>
      cases n with
      | file c => simp only [hsrc] at h; simp at h
      | dir cs =>
          simp only [hsrc] at h
          cases hm : fs.mkdirp tgt with
          | none => simp only [hm] at h; simp at h
          | some fsm =>
              simp only [hm] at h
              obtain ⟨ds, hds⟩ := mkdirp_makes tgt fs fsm hm
              have hgrow := (copyEntries_safe cs tgt force fsm).1
              have h1 : (copyEntries cs tgt force fsm).1 = fs1 := by rw [h]
              rw [h1] at hgrow
              exact grows_existsb hgrow tgt (by simp [existsb, hds])

theorem collectOps_mem (src : Detected) (tgtPath : Path) (tcfg scfg : ToolConfig)
    (opts : Options) (op : TransferOp)
    (h : op ∈ collectOps src tgtPath tcfg scfg opts) :
    (op.name ∈ src.skills ∧ op.category = .skill ∧
      op.src = src.path ++ [scfg.skillsDir, op.name] ∧
      op.tgt = tgtPath ++ [tcfg.skillsDir, op.name]) ∨
    (op.name ∈ src.subagents ∧ op.category = .subagent ∧
      op.src = src.path ++ [scfg.subagentsDir, op.name] ∧
      op.tgt = tgtPath ++ [tcfg.subagentsDir, op.name]) := by
  rw [collectOps] at h
  rcases List.mem_append.mp h with h | h
  · left
    split at h
    · obtain ⟨nm, hnm, rfl⟩ := List.mem_map.mp h
      exact ⟨hnm, rfl, rfl, rfl⟩
    · cases h
  · right
    split at h
    · obtain ⟨nm, hnm, rfl⟩ := List.mem_map.mp h
      exact ⟨hnm, rfl, rfl, rfl⟩
    · cases h

theorem runOps_ok_targets_exist (opts : Options) (hd : opts.dryRun = false)
    (ops : List TransferOp) (fs : FsNode) (rs : List OpResult) (fs1 : FsNode)
    (h : runOps opts ops fs = .ok (rs, fs1)) :
    ∀ op ∈ ops, existsb fs1 op.tgt = true := by
  induction ops generalizing fs rs with
  | nil =>
      intro op hm
      exact absurd hm (List.not_mem_nil op)
  | cons op rest ih =>
      intro op1 hm
      rw [runOps] at h
      simp only [fsm_bind_eq, fsm_pure_eq, fsm_bind_getFs] at h
      rw [if_neg (by simp [hd])] at h
      by_cases hskip : (existsb fs op.tgt && !opts.force) = true
      · rw [if_pos hskip] at h
        rw [fsm_bind_apply] at h
        cases hr : runOps opts rest fs with
        | error e => simp only [hr] at h; cases h
        | ok p =>
            obtain ⟨rs0, fsR⟩ := p
            simp only [hr, fsm_pure_apply, Except.ok.injEq, Prod.mk.injEq] at h
            obtain ⟨-, hfs⟩ := h
            subst hfs
            rcases List.mem_cons.mp hm with hm1 | hm1
            · subst hm1
              have hex0 : existsb fs op1.tgt = true := by
                have hh := hskip
                rw [Bool.and_eq_true] at hh
                exact hh.1
              exact grows_existsb (runOps_ok_grows opts rest fs rs0 fsR hr) _ hex0
            · exact ih fs rs0 hr op1 hm1
      · rw [if_neg hskip] at h
        cases hsrc : fs.find op.src with
        | none =>
            simp only [hsrc] at h
            simp [fsCrash] at h
        | some n =>
            cases n with
            | dir cs =>
                simp only [hsrc] at h
                rw [fsm_bind_apply] at h
                simp only [doCopyDirectory_apply] at h
                cases hc : copyDirectory fs op.src op.tgt opts.force with
                | mk fsC okc =>
                    cases okc with
                    | false => simp only [hc] at h; simp at h
                    | true =>
                        simp only [hc] at h
                        rw [fsm_bind_apply] at h
                        cases hr : runOps opts rest fsC with
                        | error e => simp only [hr] at h; cases h
                        | ok p =>
                            obtain ⟨rs0, fsR⟩ := p
                            simp only [hr, fsm_pure_apply, Except.ok.injEq,
                              Prod.mk.injEq] at h
                            obtain ⟨-, hfs⟩ := h
                            subst hfs
                            rcases List.mem_cons.mp hm with hm1 | hm1
                            · subst hm1
                              exact grows_existsb
                                (runOps_ok_grows opts rest fsC rs0 fsR hr) _
                                (copyDirectory_ok_tgt_exists fs op1.src op1.tgt
                                  opts.force fsC hc)
                            · exact ih fsC rs0 hr op1 hm1
            | file c =>
                simp only [hsrc] at h
                rw [fsm_bind_apply] at h
                cases hmk : doMkdirpIfMissing op.tgt.dropLast fs with
                | error e => simp only [hmk] at h; cases h
                | ok p =>
                    obtain ⟨u, fsA⟩ := p
                    simp only [hmk] at h
                    rw [fsm_bind_apply] at h
                    simp only [doSetFile_apply] at h
                    cases hsf : fsA.setFile op.tgt c with
                    | none => simp only [hsf] at h; cases h
                    | some fsB =>
                        simp only [hsf] at h
                        rw [fsm_bind_apply] at h
                        cases hr : runOps opts rest fsB with
                        | error e => simp only [hr] at h; cases h
                        | ok p2 =>
                            obtain ⟨rs0, fsR⟩ := p2
                            simp only [hr, fsm_pure_apply, Except.ok.injEq,
                              Prod.mk.injEq] at h
                            obtain ⟨-, hfs⟩ := h
                            subst hfs
                            rcases List.mem_cons.mp hm with hm1 | hm1
                            · subst hm1
                              have hmade := setFile_makes op1.tgt c fsA fsB hsf
                              exact grows_existsb
                                (runOps_ok_grows opts rest fsB rs0 fsR hr) _
                                (by simp [existsb, hmade])
                            · exact ih fsB rs0 hr op1 hm1

/-- When both tools are detected and every op target already exists, a
no-force, no-dry-run mirror invocation completes without touching the
filesystem: it reports `noFiles` or a log of `skippedExists` lines. -/
theorem mirror_all_exists_skips (A B : String) (s t : Tool)
    (hpA : parseTool A = some s) (hpB : parseTool B = some t)
    (opts : Options) (hf : opts.force = false) (hd : opts.dryRun = false)
    (cwd : Path) (now : String) (fs : FsNode) (src tgt : Detected)
    (hds : detLookup (detectTools cwd fs) s = some src)
    (hdt : detLookup (detectTools cwd fs) t = some tgt)
    (htex : ∀ op ∈ collectOps src tgt.path (toolConfig t) (toolConfig s) opts,
        existsb fs op.tgt = true) :
    ∃ out, mirror A B opts cwd now fs = .ok (out, fs) ∧
      (out = .noFiles ∨ ∃ rs, out = .done rs ∧ ∀ r ∈ rs, r.action = .skippedExists) := by
  by_cases hemp : (collectOps src tgt.path (toolConfig t) (toolConfig s) opts).isEmpty = true
  · refine ⟨.noFiles, ?_, Or.inl rfl⟩
    rw [mirror]
    simp only [hpA, hpB, fsm_bind_eq, fsm_pure_eq, fsm_bind_getFs, hds, hdt,
      fsm_bind_pureL]
    rw [if_pos hemp]
    rfl
  · refine ⟨.done ((collectOps src tgt.path (toolConfig t) (toolConfig s) opts).map
      fun op => ⟨op.category, op.name, .skippedExists⟩), ?_, Or.inr ⟨_, rfl, ?_⟩⟩
    · rw [mirror]
      simp only [hpA, hpB, fsm_bind_eq, fsm_pure_eq, fsm_bind_getFs, hds, hdt,
        fsm_bind_pureL]
      rw [if_neg hemp, fsm_bind_apply,
        runOps_all_exists opts hd hf (collectOps src tgt.path (toolConfig t) (toolConfig s) opts) fs htex]
      rfl
    · intro r hr
      obtain ⟨op, -, rfl⟩ := List.mem_map.mp hr
      rfl

/-- The tail of a run-then-rerun argument for `mirror A B` with distinct
tools: from the per-op phase of a completed first run (entered at `fsE` after
the possible auto-init, whose ops were built from the source scans of the
original tree `fs`), the second invocation completes on the final state
without changing it, skipping every op. -/
theorem mirror_tail_replay (A B : String) (s t : Tool)
    (hpA : parseTool A = some s) (hpB : parseTool B = some t) (hst : s ≠ t)
    (opts : Options) (hf : opts.force = false) (hd : opts.dryRun = false)
    (cwd : Path) (now2 : String) (fs fsE : FsNode) (src d2 : Detected)
    (hsrc_eq : src = ⟨cwd ++ [(toolConfig s).dir],
        scanEntries fs (cwd ++ [(toolConfig s).dir] ++ [(toolConfig s).skillsDir]),
        scanEntries fs (cwd ++ [(toolConfig s).dir] ++ [(toolConfig s).subagentsDir])⟩)
    (hexA : existsb fs (cwd ++ [(toolConfig s).dir]) = true)
    (hd2path : d2.path = cwd ++ [(toolConfig t).dir])
    (hfrE : ∀ q, divergeb (cwd ++ [(toolConfig t).dir]) q = true →
        fsE.find q = fs.find q)
    (hexBE : existsb fsE (cwd ++ [(toolConfig t).dir]) = true)
    (out1 : MirrorOutcome) (fs1 : FsNode)
    (h1 : (if (collectOps src d2.path (toolConfig t) (toolConfig s) opts).isEmpty = true
        then FsM.pure MirrorOutcome.noFiles
        else FsM.bind (runOps opts (collectOps src d2.path (toolConfig t) (toolConfig s) opts))
          (fun rs => FsM.pure (MirrorOutcome.done rs))) fsE = .ok (out1, fs1)) :
    ∃ out2, mirror A B opts cwd now2 fs1 = .ok (out2, fs1) ∧
      (out2 = .noFiles ∨ ∃ rs, out2 = .done rs ∧ ∀ r ∈ rs, r.action = .skippedExists) := by
  have hdvA : divergeb (cwd ++ [(toolConfig t).dir]) (cwd ++ [(toolConfig s).dir]) = true :=
    divergeb_append_left cwd _ _ [] [] (toolConfig_dir_inj t s (fun hh => hst hh.symm))
  cases hemp : (collectOps src d2.path (toolConfig t) (toolConfig s) opts).isEmpty with
  | true =>
      rw [if_pos hemp] at h1
      simp only [fsm_pure_apply, Except.ok.injEq, Prod.mk.injEq] at h1
      obtain ⟨-, hfs1⟩ := h1
      subst hfs1
      have hAfind : fsE.find (cwd ++ [(toolConfig s).dir]) = fs.find (cwd ++ [(toolConfig s).dir]) :=
        hfrE _ hdvA
      have hexA2 : existsb fsE (cwd ++ [(toolConfig s).dir]) = true := by
        rw [existsb_congr hAfind]
        exact hexA
      have hds2 : detLookup (detectTools cwd fsE) s = some src := by
        rw [detLookup_detectTools, if_pos hexA2,
          scanEntries_congr fsE fs (cwd ++ [(toolConfig s).dir]) [(toolConfig s).skillsDir] hAfind,
          scanEntries_congr fsE fs (cwd ++ [(toolConfig s).dir]) [(toolConfig s).subagentsDir] hAfind,
          hsrc_eq]
      have hdt2 : detLookup (detectTools cwd fsE) t = some ⟨cwd ++ [(toolConfig t).dir],
          scanEntries fsE (cwd ++ [(toolConfig t).dir] ++ [(toolConfig t).skillsDir]),
          scanEntries fsE (cwd ++ [(toolConfig t).dir] ++ [(toolConfig t).subagentsDir])⟩ := by
        rw [detLookup_detectTools, if_pos hexBE]
      refine mirror_all_exists_skips A B s t hpA hpB opts hf hd cwd now2 fsE src _ hds2 hdt2 ?_
      intro op hop
      have hnil : collectOps src d2.path (toolConfig t) (toolConfig s) opts = [] :=
        isEmpty_eq_nil _ hemp
      have hop1 : op ∈ collectOps src (cwd ++ [(toolConfig t).dir]) (toolConfig t) (toolConfig s) opts := hop
      rw [← hd2path, hnil] at hop1
      cases hop1
  | false =>
      rw [if_neg (by simp [hemp])] at h1
      rw [fsm_bind_apply] at h1
      cases hr : runOps opts (collectOps src d2.path (toolConfig t) (toolConfig s) opts) fsE with
      | error e => simp only [hr] at h1; cases h1
      | ok p =>
          obtain ⟨rs1, fsR⟩ := p
          simp only [hr, fsm_pure_apply, Except.ok.injEq, Prod.mk.injEq] at h1
          obtain ⟨-, hfs1⟩ := h1
          subst hfs1
          have hshape : ∀ op ∈ collectOps src d2.path (toolConfig t) (toolConfig s) opts,
              ∃ sub nm, op.tgt = (cwd ++ [(toolConfig t).dir]) ++ [sub, nm] := by
            intro op hop
            rcases collectOps_mem src d2.path (toolConfig t) (toolConfig s) opts op hop with
              ⟨-, -, -, htgt⟩ | ⟨-, -, -, htgt⟩
            · exact ⟨(toolConfig t).skillsDir, op.name, by rw [htgt, hd2path]⟩
            · exact ⟨(toolConfig t).subagentsDir, op.name, by rw [htgt, hd2path]⟩
          have hfrR : ∀ q, divergeb (cwd ++ [(toolConfig t).dir]) q = true →
              fsR.find q = fs.find q := by
            intro q hq
            have hh := runOps_frame opts (cwd ++ [(toolConfig t).dir]) _ hshape fsE q hq
            rw [show stateAfter (runOps opts (collectOps src d2.path (toolConfig t) (toolConfig s) opts)) fsE = fsR
              from by simp [stateAfter, hr]] at hh
            rw [hh]
            exact hfrE q hq
          have hAfind : fsR.find (cwd ++ [(toolConfig s).dir]) = fs.find (cwd ++ [(toolConfig s).dir]) :=
            hfrR _ hdvA
          have hexA2 : existsb fsR (cwd ++ [(toolConfig s).dir]) = true := by
            rw [existsb_congr hAfind]
            exact hexA
          have hds2 : detLookup (detectTools cwd fsR) s = some src := by
            rw [detLookup_detectTools, if_pos hexA2,
              scanEntries_congr fsR fs (cwd ++ [(toolConfig s).dir]) [(toolConfig s).skillsDir] hAfind,
              scanEntries_congr fsR fs (cwd ++ [(toolConfig s).dir]) [(toolConfig s).subagentsDir] hAfind,
              hsrc_eq]
          have hgrow : Grows fsE fsR := runOps_ok_grows opts _ fsE rs1 fsR hr
          have hexB2 : existsb fsR (cwd ++ [(toolConfig t).dir]) = true :=
            grows_existsb hgrow _ hexBE
          have hdt2 : detLookup (detectTools cwd fsR) t = some ⟨cwd ++ [(toolConfig t).dir],
              scanEntries fsR (cwd ++ [(toolConfig t).dir] ++ [(toolConfig t).skillsDir]),
              scanEntries fsR (cwd ++ [(toolConfig t).dir] ++ [(toolConfig t).subagentsDir])⟩ := by
            rw [detLookup_detectTools, if_pos hexB2]
          have htex1 := runOps_ok_targets_exist opts hd _ fsE rs1 fsR hr
          refine mirror_all_exists_skips A B s t hpA hpB opts hf hd cwd now2 fsR src _ hds2 hdt2 ?_
          intro op hop
          refine htex1 op ?_
          have hop1 : op ∈ collectOps src (cwd ++ [(toolConfig t).dir]) (toolConfig t) (toolConfig s) opts := hop
          rw [← hd2path] at hop1
          exact hop1

/-- C5: no-force idempotence of `mirror`.  For every source tool string `A`
and target tool string `B`, options with `force = false` and
`dryRun = false`, any working directory, timestamps and starting tree: if
`mirror A B` completes, running it again from the resulting tree returns
that tree unchanged, and the second invocation reports `noFiles` or a log
consisting solely of `skippedExists` ops — every op of the second run is
skipped because its target path already exists. -/
theorem mirror_noforce_idempotent (A B : String) (opts : Options)
    (hf : opts.force = false) (hd : opts.dryRun = false)
    (cwd : Path) (now now2 : String) (fs : FsNode)
    (out1 : MirrorOutcome) (fs1 : FsNode)
    (h1 : mirror A B opts cwd now fs = .ok (out1, fs1)) :
    ∃ out2, mirror A B opts cwd now2 fs1 = .ok (out2, fs1) ∧
      (out2 = .noFiles ∨ ∃ rs, out2 = .done rs ∧ ∀ r ∈ rs, r.action = .skippedExists) := by
  have h2 := h1
  rw [mirror] at h2
  cases hpA : parseTool A with
  | none => simp [hpA, exitWith] at h2
  | some s =>
  cases hpB : parseTool B with
  | none => simp [hpA, hpB, exitWith] at h2
  | some t =>
  simp only [hpA, hpB, fsm_bind_eq, fsm_pure_eq, fsm_bind_getFs] at h2
  cases hds : detLookup (detectTools cwd fs) s with
  | none => simp [hds, exitWith] at h2
  | some src =>
  simp only [hds] at h2
  have hchar := detLookup_detectTools cwd fs s
  rw [hds] at hchar
  by_cases hexA : existsb fs (cwd ++ [(toolConfig s).dir]) = true
  case neg =>
    rw [if_neg hexA] at hchar
    exact Option.noConfusion hchar
  case pos =>
  rw [if_pos hexA] at hchar
  have hsrc_eq : src = _ := Option.some.inj hchar
  by_cases hst : s = t
  · subst hst
    have hsp : src.path = cwd ++ [(toolConfig s).dir] := by rw [hsrc_eq]
    have hssk : src.skills
        = scanEntries fs (cwd ++ [(toolConfig s).dir] ++ [(toolConfig s).skillsDir]) := by
      rw [hsrc_eq]
    have hssub : src.subagents
        = scanEntries fs (cwd ++ [(toolConfig s).dir] ++ [(toolConfig s).subagentsDir]) := by
      rw [hsrc_eq]
    have htex : ∀ op ∈ collectOps src src.path (toolConfig s) (toolConfig s) opts,
        existsb fs op.tgt = true := by
      intro op hop
      rcases collectOps_mem src src.path (toolConfig s) (toolConfig s) opts op hop with
        ⟨hnm, -, -, htgt⟩ | ⟨hnm, -, -, htgt⟩
      · rw [htgt, hsp]
        rw [hssk] at hnm
        have hx := scanEntries_exists fs
          (cwd ++ [(toolConfig s).dir] ++ [(toolConfig s).skillsDir]) op.name hnm
        have hpe : (cwd ++ [(toolConfig s).dir]) ++ [(toolConfig s).skillsDir, op.name]
            = (cwd ++ [(toolConfig s).dir] ++ [(toolConfig s).skillsDir]) ++ [op.name] := by
          simp
        simp only [existsb]
        rw [hpe]
        exact hx
      · rw [htgt, hsp]
        rw [hssub] at hnm
        have hx := scanEntries_exists fs
          (cwd ++ [(toolConfig s).dir] ++ [(toolConfig s).subagentsDir]) op.name hnm
        have hpe : (cwd ++ [(toolConfig s).dir]) ++ [(toolConfig s).subagentsDir, op.name]
            = (cwd ++ [(toolConfig s).dir] ++ [(toolConfig s).subagentsDir]) ++ [op.name] := by
          simp
        simp only [existsb]
        rw [hpe]
        exact hx
    obtain ⟨out, heq, hprop⟩ :=
      mirror_all_exists_skips A B s s hpA hpB opts hf hd cwd now fs src src hds hds htex
    rw [heq] at h1
    simp only [Except.ok.injEq, Prod.mk.injEq] at h1
    obtain ⟨-, hfs1⟩ := h1
    subst hfs1
    exact mirror_all_exists_skips A B s s hpA hpB opts hf hd cwd now2 fs src src hds hds htex
  · cases hdt : detLookup (detectTools cwd fs) t with
    | some d =>
        have hcharB := detLookup_detectTools cwd fs t
        rw [hdt] at hcharB
        by_cases hexB : existsb fs (cwd ++ [(toolConfig t).dir]) = true
        case neg =>
          rw [if_neg hexB] at hcharB
          exact Option.noConfusion hcharB
        case pos =>
        rw [if_pos hexB] at hcharB
        have hd_eq : d = _ := Option.some.inj hcharB
        have hdpath : d.path = cwd ++ [(toolConfig t).dir] := by rw [hd_eq]
        simp only [hdt, fsm_bind_pureL, fsm_bind_getFs] at h2
        exact mirror_tail_replay A B s t hpA hpB hst opts hf hd cwd now2 fs fs src d
          hsrc_eq hexA hdpath (fun q _ => rfl) hexB out1 fs1 h2
    | none =>
        have hcharB := detLookup_detectTools cwd fs t
        rw [hdt] at hcharB
        by_cases hexB : existsb fs (cwd ++ [(toolConfig t).dir]) = true
        case pos =>
          rw [if_pos hexB] at hcharB
          exact Option.noConfusion hcharB
        case neg =>
        have hexB0 : existsb fs (cwd ++ [(toolConfig t).dir]) = false := by
          cases hx : existsb fs (cwd ++ [(toolConfig t).dir]) with
          | false => rfl
          | true => exact absurd hx hexB
        simp only [hdt] at h2
        rw [fsm_bind_apply] at h2
        cases hit : initTool B cwd now fs with
        | error e => simp only [hit] at h2; cases h2
        | ok p =>
            obtain ⟨u, fsI⟩ := p
            simp only [hit] at h2
            simp only [fsm_bind_getFs] at h2
            rcases initTool_fresh B t hpB cwd now fs hexB0 with herr | ⟨fsI2, hok, hroot, hfrI⟩
            · rw [hit] at herr
              cases herr
            · rw [hit] at hok
              simp only [Except.ok.injEq, Prod.mk.injEq] at hok
              obtain ⟨-, hIeq⟩ := hok
              subst hIeq
              have hdtI : detLookup (detectTools cwd fsI) t = some ⟨cwd ++ [(toolConfig t).dir],
                  scanEntries fsI (cwd ++ [(toolConfig t).dir] ++ [(toolConfig t).skillsDir]),
                  scanEntries fsI (cwd ++ [(toolConfig t).dir] ++ [(toolConfig t).subagentsDir])⟩ := by
                rw [detLookup_detectTools, if_pos hroot]
              simp only [hdtI] at h2
              exact mirror_tail_replay A B s t hpA hpB hst opts hf hd cwd now2 fs fsI src
                ⟨cwd ++ [(toolConfig t).dir],
                  scanEntries fsI (cwd ++ [(toolConfig t).dir] ++ [(toolConfig t).skillsDir]),
                  scanEntries fsI (cwd ++ [(toolConfig t).dir] ++ [(toolConfig t).subagentsDir])⟩
                hsrc_eq hexA rfl hfrI hroot out1 fs1 h2

/-- C5 witness: on the concrete tree `dryRunFixture`, a first
`mirror cursor claude` run (no flags) copies `a.md` and yields `idemFs1`;
the theorem then gives the second run: same tree, all ops skipped. -/
theorem mirror_noforce_idempotent_witness :
    (mirror "cursor" "claude" ⟨false, false, false, false, false⟩ [] "T" dryRunFixture
        = .ok (.done [⟨.skill, "a.md", .created⟩], idemFs1)) ∧
    ∃ out2, mirror "cursor" "claude" ⟨false, false, false, false, false⟩ [] "T2" idemFs1
        = .ok (out2, idemFs1) ∧
      (out2 = .noFiles ∨ ∃ rs, out2 = .done rs ∧ ∀ r ∈ rs, r.action = .skippedExists) :=
  ⟨rfl, mirror_noforce_idempotent "cursor" "claude" ⟨false, false, false, false, false⟩
    rfl rfl [] "T" "T2" dryRunFixture (.done [⟨.skill, "a.md", .created⟩]) idemFs1 rfl⟩

end SkillSync
